import Mathlib

/-!
# Verification of the `seq-events` streaming FASTA/FASTQ event parser

This development embeds the two readers of the repository (`src/fasta.rs`,
`src/fastq.rs`) as pure Lean functions and proves properties of them.

Modelling choices:
* A byte is a `Nat` (ASCII code); `10` = `'\n'`, `13` = `'\r'`, `62` = `'>'`,
  `64` = `'@'`, `43` = `'+'`, the line terminators and record markers.
* `std::io::BufReader` over an in-memory source (`Cursor`, as used by the
  repository's tests) is modelled by a `window` (the currently buffered,
  unconsumed bytes, what `fill_buf` returns) and `rest` (bytes not yet read
  from the underlying source).  `fill_buf` refills the window from `rest`
  (at most `cap` bytes) only when the window is empty; `consume(n)` drops
  `n` bytes from the front of the window.
* The Rust `next_event` loop keeps a `pending_consume` count that is applied
  at the top of the next loop iteration, before `fill_buf`.  Since the
  consumption is always applied before the window is next inspected, the
  embedding applies it eagerly: every step immediately drops the consumed
  bytes from the window.  The sequence of produced events is unchanged.
* `memchr`/`memchr2`/`memchr3` and `Iterator::position` are modelled by
  `scanIdx` (first index satisfying a predicate).
* I/O errors of the underlying source are not modelled (the source is a pure
  in-memory byte list); the `Io` variant of `ReaderError` therefore does not
  appear.  `InvalidFormat` carries the offending byte and the expected
  marker byte instead of the formatted message string.
-/

/-- First index whose byte satisfies `p` (model of `memchr*` and
`Iterator::position`, which return `Option<usize>`). -/
def scanIdx (p : Nat → Bool) : List Nat → Option Nat
  | [] => none
  | b :: t => if p b then some 0 else (scanIdx p t).map (· + 1)

/-- `scanIdx` defaulting to the length of the list, the model of
`memchr(...).unwrap_or(buf_len)`. -/
def scanIdxD (p : Nat → Bool) (l : List Nat) : Nat :=
  (scanIdx p l).getD l.length

/-- The `Event` enum of `src/event.rs`, together with the `StartRecord`
variant used by `src/fasta.rs`.  Payload slices are modelled by the byte
lists they denote. -/
inductive Ev where
  | startRecord
  | nextRecord
  | idChunk (bs : List Nat)
  | seqChunk (bs : List Nat)
  | qualChunk (bs : List Nat)
deriving DecidableEq

/-- The format-error case of `ReaderError` (`src/error.rs`): the offending
byte and the marker byte that was expected. -/
inductive Err where
  | invalidFormat (found : Nat) (expected : Nat)
deriving DecidableEq

/-- Result of one `next_event` call: `Some(Ok(event))`, `Some(Err(e))` or
`None` (end of stream). -/
inductive Out where
  | event (e : Ev)
  | error (e : Err)
  | eof
deriving DecidableEq

/-- Result of a single iteration of the `loop` inside `next_event`: either
the call returns (`yield`) or the loop continues with an updated reader. -/
inductive StepRes (σ : Type) where
  | yield (o : Out) (r : σ)
  | cont (r : σ)
deriving DecidableEq

/-- `State` of `src/fasta.rs`. -/
inductive FState where
  | start
  | id
  | sequence
deriving DecidableEq

/-- `FastaReader`: buffered source plus parser state.  `pending_consume` is
applied eagerly (see module comment), so it does not appear as a field. -/
structure FastaReader where
  cap : Nat
  window : List Nat
  rest : List Nat
  state : FState
deriving DecidableEq

/-- `BufReader::fill_buf` for the FASTA reader: refill the window from the
source only when it is empty. -/
def fillF (r : FastaReader) : FastaReader :=
  if r.window.isEmpty then
    { r with window := r.rest.take r.cap, rest := r.rest.drop r.cap }
  else r

/-- One iteration of the `loop` in `FastaReader::next_event`
(`src/fasta.rs` lines 37-134), after the buffer has been refilled. -/
def fastaScan (r : FastaReader) : StepRes FastaReader :=
  match r.window with
  | [] => .yield .eof r
  | b0 :: w0 =>
    match r.state with
    | .start =>
      match scanIdx (fun c => !(c == 10 || c == 13)) (b0 :: w0) with
      | none => .cont { r with window := [] }
      | some 0 =>
        if b0 = 62 then
          .yield (.event .startRecord) { r with window := w0, state := .id }
        else
          .yield (.error (.invalidFormat b0 62)) r
      | some (pos + 1) => .cont { r with window := (b0 :: w0).drop (pos + 1) }
    | .id =>
      match scanIdx (fun c => c == 10) (b0 :: w0) with
      | some nl =>
        let e := if 0 < nl ∧ (b0 :: w0).getD (nl - 1) 0 = 13 then nl - 1 else nl
        if 0 < e then
          .yield (.event (.idChunk ((b0 :: w0).take e)))
            { r with window := (b0 :: w0).drop (nl + 1), state := .sequence }
        else
          .cont { r with window := (b0 :: w0).drop (nl + 1), state := .sequence }
      | none =>
        .yield (.event (.idChunk (b0 :: w0))) { r with window := [] }
    | .sequence =>
      if b0 = 10 then .cont { r with window := w0 }
      else if b0 = 13 then
        .cont { r with window := if w0.headD 0 = 10 then w0.drop 1 else w0 }
      else if b0 = 62 then
        .yield (.event .startRecord) { r with window := w0, state := .id }
      else
        let ce := scanIdxD (fun c => c == 10 || c == 13 || c == 62) (b0 :: w0)
        if ce = 0 then .cont { r with window := w0 }
        else
          .yield (.event (.seqChunk ((b0 :: w0).take ce)))
            { r with window := (b0 :: w0).drop ce }

/-- One full loop iteration: consume pending bytes (already done eagerly),
refill, scan. -/
def fastaStep (r : FastaReader) : StepRes FastaReader :=
  fastaScan (fillF r)

/-- `FastaReader::next_event`, with fuel bounding the number of loop
iterations; `none` means the fuel ran out. -/
def fastaNext : Nat → FastaReader → Option (Out × FastaReader)
  | 0, _ => none
  | fuel + 1, r =>
    match fastaStep r with
    | .yield o r' => some (o, r')
    | .cont r' => fastaNext fuel r'

/-- Pull events until end of stream or error; returns the event list and the
final error, if any.  `none` means the fuel ran out. -/
def collectF : Nat → FastaReader → Option (List Ev × Option Err)
  | 0, _ => none
  | fuel + 1, r =>
    match fastaStep r with
    | .cont r' => collectF fuel r'
    | .yield .eof _ => some ([], none)
    | .yield (.error e) _ => some ([], some e)
    | .yield (.event ev) r' =>
      match collectF fuel r' with
      | none => none
      | some (evs, er) => some (ev :: evs, er)

/-- `FastaReader::with_capacity(cap, Cursor::new(input))`. -/
def initFasta (cap : Nat) (input : List Nat) : FastaReader :=
  ⟨cap, [], input, .start⟩

/-- `DEFAULT_BUFFER_SIZE` (128 KiB). -/
def defaultBufSize : Nat := 128 * 1024

/-- `State` of `src/fastq.rs`. -/
inductive QState where
  | start
  | id
  | sequence
  | plus
  | quality
deriving DecidableEq

/-- `FastqReader`: buffered source plus parser state and counters. -/
structure FastqReader where
  cap : Nat
  window : List Nat
  rest : List Nat
  state : QState
  seqLen : Nat
  qualLen : Nat
  firstRecord : Bool
deriving DecidableEq

/-- `BufReader::fill_buf` for the FASTQ reader. -/
def fillQ (r : FastqReader) : FastqReader :=
  if r.window.isEmpty then
    { r with window := r.rest.take r.cap, rest := r.rest.drop r.cap }
  else r

/-- One iteration of the `loop` in `FastqReader::next_event`
(`src/fastq.rs` lines 49-212), after the buffer has been refilled. -/
def fastqScan (r : FastqReader) : StepRes FastqReader :=
  match r.window with
  | [] => .yield .eof r
  | b0 :: w0 =>
    match r.state with
    | .start =>
      match scanIdx (fun c => !(c == 10 || c == 13)) (b0 :: w0) with
      | none => .cont { r with window := [] }
      | some 0 =>
        if b0 = 64 then
          if r.firstRecord then
            .cont { r with window := w0, state := .id, seqLen := 0, qualLen := 0, firstRecord := false }
          else
            .yield (.event .nextRecord)
              { r with window := w0, state := .id, seqLen := 0, qualLen := 0, firstRecord := false }
        else
          .yield (.error (.invalidFormat b0 64)) r
      | some (pos + 1) => .cont { r with window := (b0 :: w0).drop (pos + 1) }
    | .id =>
      match scanIdx (fun c => c == 10) (b0 :: w0) with
      | some nl =>
        let e := if 0 < nl ∧ (b0 :: w0).getD (nl - 1) 0 = 13 then nl - 1 else nl
        if 0 < e then
          .yield (.event (.idChunk ((b0 :: w0).take e)))
            { r with window := (b0 :: w0).drop (nl + 1), state := .sequence }
        else
          .cont { r with window := (b0 :: w0).drop (nl + 1), state := .sequence }
      | none =>
        .yield (.event (.idChunk (b0 :: w0))) { r with window := [] }
    | .sequence =>
      if b0 = 43 then
        match scanIdx (fun c => c == 10) (b0 :: w0) with
        | some nl => .cont { r with window := (b0 :: w0).drop (nl + 1), state := .plus }
        | none => .cont { r with window := [], state := .plus }
      else if b0 = 10 then .cont { r with window := w0 }
      else if b0 = 13 then
        .cont { r with window := if w0.headD 0 = 10 then w0.drop 1 else w0 }
      else
        let ce := scanIdxD (fun c => c == 10 || c == 13 || c == 43) (b0 :: w0)
        if ce = 0 then .cont { r with window := w0 }
        else
          .yield (.event (.seqChunk ((b0 :: w0).take ce)))
            { r with window := (b0 :: w0).drop ce, seqLen := r.seqLen + ce }
    | .plus =>
      if b0 = 10 then .cont { r with window := w0, state := .quality }
      else if b0 = 13 then
        .cont { r with window := if w0.headD 0 = 10 then w0.drop 1 else w0, state := .quality }
      else .cont { r with state := .quality }
    | .quality =>
      if b0 = 10 then .cont { r with window := w0 }
      else if b0 = 13 then
        .cont { r with window := if w0.headD 0 = 10 then w0.drop 1 else w0 }
      else
        let remaining := r.seqLen - r.qualLen
        if remaining = 0 then .cont { r with state := .start }
        else
          let ce := min (scanIdxD (fun c => c == 10 || c == 13) (b0 :: w0)) remaining
          if ce = 0 then .cont { r with window := w0 }
          else
            .yield (.event (.qualChunk ((b0 :: w0).take ce)))
              { r with window := (b0 :: w0).drop ce, qualLen := r.qualLen + ce, state := if r.qualLen + ce ≥ r.seqLen then .start else .quality }

/-- One full loop iteration of the FASTQ reader. -/
def fastqStep (r : FastqReader) : StepRes FastqReader :=
  fastqScan (fillQ r)

/-- `FastqReader::next_event` with fuel. -/
def fastqNext : Nat → FastqReader → Option (Out × FastqReader)
  | 0, _ => none
  | fuel + 1, r =>
    match fastqStep r with
    | .yield o r' => some (o, r')
    | .cont r' => fastqNext fuel r'

/-- Pull FASTQ events until end of stream or error. -/
def collectQ : Nat → FastqReader → Option (List Ev × Option Err)
  | 0, _ => none
  | fuel + 1, r =>
    match fastqStep r with
    | .cont r' => collectQ fuel r'
    | .yield .eof _ => some ([], none)
    | .yield (.error e) _ => some ([], some e)
    | .yield (.event ev) r' =>
      match collectQ fuel r' with
      | none => none
      | some (evs, er) => some (ev :: evs, er)

/-- `FastqReader::with_capacity(cap, Cursor::new(input))`. -/
def initFastq (cap : Nat) (input : List Nat) : FastqReader :=
  ⟨cap, [], input, .start, 0, 0, true⟩

/-! ## Concrete inputs (ASCII byte lists) -/

/-- `"@read1\nACGT\n+\nIIII\n"`. -/
def inputC5 : List Nat :=
  [64, 114, 101, 97, 100, 49, 10, 65, 67, 71, 84, 10, 43, 10, 73, 73, 73, 73, 10]

/-- `">seq1 description\nACGT\nTGCA\n"`. -/
def inputC6 : List Nat :=
  [62, 115, 101, 113, 49, 32, 100, 101, 115, 99, 114, 105, 112, 116, 105, 111,
   110, 10, 65, 67, 71, 84, 10, 84, 71, 67, 65, 10]

/-- `">a\nB\n"`. -/
def inputOneRec : List Nat := [62, 97, 10, 66, 10]

/-- `">ab\r\nC\n"` — a CRLF identifier line. -/
def inputCrId : List Nat := [62, 97, 98, 13, 10, 67, 10]

/-- `"@r\nAC\n+AB\nXY\n"` — a separator line with content after the `'+'`. -/
def inputSep : List Nat := [64, 114, 10, 65, 67, 10, 43, 65, 66, 10, 88, 89, 10]

/-- `"@r\nAC\n"` — a FASTQ record truncated before its quality block. -/
def inputTrunc : List Nat := [64, 114, 10, 65, 67, 10]

/-! ## Observables: per-record payload concatenations

A record, as assembled by a caller of the reader, is the concatenation of
the `IdChunk`, `SeqChunk` and `QualChunk` payloads between record-start
events. -/

/-- Per-record assembled payloads. -/
structure Rec where
  rid : List Nat
  rseq : List Nat
  rqual : List Nat
deriving DecidableEq

def emptyRec : Rec := ⟨[], [], []⟩

/-- Process one event in front of an already-assembled tail: a record-start
event closes the current record; a chunk event prepends its payload to the
corresponding field of the current record. -/
def pushEv : Ev → Rec × List Rec → Rec × List Rec
  | .startRecord, (cur, recs) => (emptyRec, cur :: recs)
  | .nextRecord, (cur, recs) => (emptyRec, cur :: recs)
  | .idChunk b, (cur, recs) => (⟨b ++ cur.rid, cur.rseq, cur.rqual⟩, recs)
  | .seqChunk b, (cur, recs) => (⟨cur.rid, b ++ cur.rseq, cur.rqual⟩, recs)
  | .qualChunk b, (cur, recs) => (⟨cur.rid, cur.rseq, b ++ cur.rqual⟩, recs)

/-- Assemble the per-record payload concatenations of an event list.  The
first component is the open record at the front (events before the first
record-start event), the second the records closed by record-start
events. -/
def goEv (evs : List Ev) : Rec × List Rec := evs.foldr pushEv (emptyRec, [])

/-- The caller-observable outcome of a run: per-record payload
concatenations plus the terminal error, if any. -/
def obs (p : List Ev × Option Err) : (Rec × List Rec) × Option Err :=
  (goEv p.1, p.2)

/-- Total bytes carried by `SeqChunk` events. -/
def seqTotal (evs : List Ev) : Nat :=
  (evs.map fun e => match e with | .seqChunk b => b.length | _ => 0).sum

/-- Total bytes carried by `QualChunk` events. -/
def qualTotal (evs : List Ev) : Nat :=
  (evs.map fun e => match e with | .qualChunk b => b.length | _ => 0).sum

/-! ## Canonical (window-free) reference semantics

`absFasta`/`absFastq` run the same state machines directly on the flat
remaining input, without any buffer window: every scan sees the whole rest
of the input.  They serve as the capacity-independent reference against
which the buffered readers are compared. -/

/-- Rank used for termination: states that may be entered without consuming
a byte. -/
def rankQ : QState → Nat
  | .plus => 2
  | .quality => 1
  | _ => 0

/-- Every `'+'` byte in the list is immediately followed by a line feed (or
is the last byte).  Under this condition a separator line can never span a
window boundary, because its content is empty. -/
def plusOk : List Nat → Bool
  | [] => true
  | [_] => true
  | b :: c :: t => (b != 43 || c == 10) && plusOk (c :: t)

/-- Canonical FASTA state machine on the flat remaining input. -/
def absFasta (st : FState) (s : List Nat) : List Ev × Option Err :=
  match s with
  | [] => ([], none)
  | b0 :: s0 =>
    match st with
    | .start =>
      if b0 = 10 ∨ b0 = 13 then absFasta .start s0
      else if b0 = 62 then
        let p := absFasta .id s0
        (.startRecord :: p.1, p.2)
      else ([], some (.invalidFormat b0 62))
    | .id =>
      match scanIdx (fun c => c == 10) (b0 :: s0) with
      | some nl =>
        let e := if 0 < nl ∧ (b0 :: s0).getD (nl - 1) 0 = 13 then nl - 1 else nl
        let p := absFasta .sequence ((b0 :: s0).drop (nl + 1))
        if 0 < e then (.idChunk ((b0 :: s0).take e) :: p.1, p.2) else p
      | none => ([.idChunk (b0 :: s0)], none)
    | .sequence =>
      if b0 = 10 then absFasta .sequence s0
      else if b0 = 13 then
        absFasta .sequence (if s0.headD 0 = 10 then s0.drop 1 else s0)
      else if b0 = 62 then
        let p := absFasta .id s0
        (.startRecord :: p.1, p.2)
      else
        let ce := scanIdxD (fun c => c == 10 || c == 13 || c == 62) s0 + 1
        let p := absFasta .sequence (s0.drop (ce - 1))
        (.seqChunk ((b0 :: s0).take ce) :: p.1, p.2)
termination_by s.length
decreasing_by
  all_goals simp [List.length_drop]
  all_goals try omega
  all_goals (split <;> simp <;> omega)

/-- Canonical FASTQ state machine on the flat remaining input. -/
def absFastq (st : QState) (seqLen qualLen : Nat) (fr : Bool) (s : List Nat) :
    List Ev × Option Err :=
  match s with
  | [] => ([], none)
  | b0 :: s0 =>
    match st with
    | .start =>
      if b0 = 10 ∨ b0 = 13 then absFastq .start seqLen qualLen fr s0
      else if b0 = 64 then
        let p := absFastq .id 0 0 false s0
        if fr then p else (.nextRecord :: p.1, p.2)
      else ([], some (.invalidFormat b0 64))
    | .id =>
      match scanIdx (fun c => c == 10) (b0 :: s0) with
      | some nl =>
        let e := if 0 < nl ∧ (b0 :: s0).getD (nl - 1) 0 = 13 then nl - 1 else nl
        let p := absFastq .sequence seqLen qualLen fr ((b0 :: s0).drop (nl + 1))
        if 0 < e then (.idChunk ((b0 :: s0).take e) :: p.1, p.2) else p
      | none => ([.idChunk (b0 :: s0)], none)
    | .sequence =>
      if b0 = 43 then
        match scanIdx (fun c => c == 10) (b0 :: s0) with
        | some nl => absFastq .plus seqLen qualLen fr ((b0 :: s0).drop (nl + 1))
        | none => absFastq .plus seqLen qualLen fr []
      else if b0 = 10 then absFastq .sequence seqLen qualLen fr s0
      else if b0 = 13 then
        absFastq .sequence seqLen qualLen fr (if s0.headD 0 = 10 then s0.drop 1 else s0)
      else
        let ce := scanIdxD (fun c => c == 10 || c == 13 || c == 43) s0 + 1
        let p := absFastq .sequence (seqLen + ce) qualLen fr (s0.drop (ce - 1))
        (.seqChunk ((b0 :: s0).take ce) :: p.1, p.2)
    | .plus =>
      if b0 = 10 then absFastq .quality seqLen qualLen fr s0
      else if b0 = 13 then
        absFastq .quality seqLen qualLen fr (if s0.headD 0 = 10 then s0.drop 1 else s0)
      else absFastq .quality seqLen qualLen fr (b0 :: s0)
    | .quality =>
      if b0 = 10 then absFastq .quality seqLen qualLen fr s0
      else if b0 = 13 then
        absFastq .quality seqLen qualLen fr (if s0.headD 0 = 10 then s0.drop 1 else s0)
      else
        let remaining := seqLen - qualLen
        if h0 : remaining = 0 then absFastq .start seqLen qualLen fr (b0 :: s0)
        else
          let ce := min (scanIdxD (fun c => c == 10 || c == 13) s0 + 1) remaining
          let st' : QState := if seqLen ≤ qualLen + ce then QState.start else QState.quality
          let p := absFastq st' seqLen (qualLen + ce) fr ((b0 :: s0).drop ce)
          (.qualChunk ((b0 :: s0).take ce) :: p.1, p.2)
termination_by (s.length, rankQ st)
decreasing_by
  all_goals simp only [List.length_drop, List.length_cons, List.length_tail,
    List.length_nil, rankQ]
  all_goals try (apply Prod.Lex.left; omega)
  all_goals try (apply Prod.Lex.right; omega)
  all_goals (apply Prod.Lex.left; split <;> simp <;> omega)

/-- Reachability of a FASTQ reader state from a given reader by repeated
loop iterations of `next_event` (each iteration either continues or yields
and leaves the reader in its successor state). -/
inductive QReach : FastqReader → FastqReader → Prop where
  | refl (r : FastqReader) : QReach r r
  | step {r0 r r' : FastqReader} (h : QReach r0 r)
      (hs : fastqStep r = .cont r' ∨ ∃ o, fastqStep r = .yield o r') : QReach r0 r'

/-! ## Helper lemmas on lists and scans -/

theorem scanIdx_lt_length {p : Nat → Bool} :
    ∀ {l : List Nat} {i : Nat}, scanIdx p l = some i → i < l.length := by
  intro l
  induction l with
  | nil => intro i h; simp [scanIdx] at h
  | cons b t ih =>
    intro i h
    simp only [scanIdx] at h
    by_cases hb : p b
    · simp [hb] at h
      simp [← h]
    · simp [hb] at h
      obtain ⟨j, hj, rfl⟩ := h
      have := ih hj
      simp
      omega

theorem scanIdx_append_some {p : Nat → Bool} :
    ∀ {w : List Nat} {i : Nat} (t : List Nat),
      scanIdx p w = some i → scanIdx p (w ++ t) = some i := by
  intro w
  induction w with
  | nil => intro i t h; simp [scanIdx] at h
  | cons b w0 ih =>
    intro i t h
    simp only [scanIdx] at h ⊢
    by_cases hb : p b
    · simpa [hb] using h
    · simp [hb] at h ⊢
      obtain ⟨j, hj, rfl⟩ := h
      exact ⟨j, ih t hj, rfl⟩

theorem scanIdx_append_none {p : Nat → Bool} :
    ∀ {w : List Nat} (t : List Nat),
      scanIdx p w = none →
      scanIdx p (w ++ t) = (scanIdx p t).map (· + w.length) := by
  intro w
  induction w with
  | nil =>
    intro t _
    simp only [List.nil_append, List.length_nil]
    cases scanIdx p t <;> simp
  | cons b w0 ih =>
    intro t h
    simp only [scanIdx] at h ⊢
    by_cases hb : p b
    · simp [hb] at h
    · simp [hb] at h ⊢
      rw [ih t h]
      cases scanIdx p t <;> simp
      omega

theorem scanIdx_none_all {p : Nat → Bool} :
    ∀ {l : List Nat}, scanIdx p l = none → ∀ b ∈ l, p b = false := by
  intro l
  induction l with
  | nil => intro _ b hb; simp at hb
  | cons c t ih =>
    intro h b hb
    simp only [scanIdx] at h
    by_cases hc : p c
    · simp [hc] at h
    · simp [hc] at h
      rcases List.mem_cons.mp hb with rfl | hbt
      · exact Bool.eq_false_iff.mpr hc
      · exact ih h b hbt

theorem scanIdx_take_all {p : Nat → Bool} :
    ∀ {l : List Nat} {i : Nat}, scanIdx p l = some i →
      ∀ b ∈ l.take i, p b = false := by
  intro l
  induction l with
  | nil => intro i h; simp [scanIdx] at h
  | cons c t ih =>
    intro i h b hb
    simp only [scanIdx] at h
    by_cases hc : p c
    · simp [hc] at h
      subst h
      simp at hb
    · simp [hc] at h
      obtain ⟨j, hj, rfl⟩ := h
      simp only [List.take_succ_cons] at hb
      rcases List.mem_cons.mp hb with rfl | hbt
      · exact Bool.eq_false_iff.mpr hc
      · exact ih hj b hbt

theorem take_append_le {w t : List Nat} {n : Nat} (h : n ≤ w.length) :
    (w ++ t).take n = w.take n := by
  induction w generalizing n with
  | nil => simp at h; simp [h]
  | cons b w0 ih =>
    cases n with
    | zero => simp
    | succ m =>
      simp only [List.cons_append, List.take_succ_cons]
      rw [ih (by simpa using h)]

theorem drop_append_le {w t : List Nat} {n : Nat} (h : n ≤ w.length) :
    (w ++ t).drop n = w.drop n ++ t := by
  induction w generalizing n with
  | nil => simp at h; simp [h]
  | cons b w0 ih =>
    cases n with
    | zero => simp
    | succ m =>
      simp only [List.cons_append, List.drop_succ_cons]
      exact ih (by simpa using h)

/-! ## Concrete end-to-end runs -/

/-- C6: parsing the FASTA input `">seq1 description\nACGT\nTGCA\n"` with the
default buffer capacity yields exactly, in order: a record-start signal
(`StartRecord`), `IdChunk "seq1 description"`, `SeqChunk "ACGT"`,
`SeqChunk "TGCA"`, then end of stream. -/
theorem claimC6_run :
    collectF 200 (initFasta defaultBufSize inputC6) =
      some ([.startRecord,
             .idChunk [115, 101, 113, 49, 32, 100, 101, 115, 99, 114, 105, 112, 116, 105, 111, 110],
             .seqChunk [65, 67, 71, 84], .seqChunk [84, 71, 67, 65]], none) := by
  decide

/-- C5: parsing the FASTQ input `"@read1\nACGT\n+\nIIII\n"` with the default
buffer capacity yields exactly, in order: `IdChunk "read1"`,
`SeqChunk "ACGT"`, `QualChunk "IIII"`, then end of stream; the total
sequence length (4) equals the total quality length (4). -/
theorem claimC5_run :
    collectQ 200 (initFastq defaultBufSize inputC5) =
      some ([.idChunk [114, 101, 97, 100, 49], .seqChunk [65, 67, 71, 84],
             .qualChunk [73, 73, 73, 73]], none) ∧
    seqTotal [.idChunk [114, 101, 97, 100, 49], .seqChunk [65, 67, 71, 84],
              .qualChunk [73, 73, 73, 73]] = 4 ∧
    qualTotal [.idChunk [114, 101, 97, 100, 49], .seqChunk [65, 67, 71, 84],
               .qualChunk [73, 73, 73, 73]] = 4 := by
  refine ⟨by decide, by decide, by decide⟩

/-- C1, counterexample: on the FASTA reader the record-start event is *not*
suppressed for the first record.  The single-record input `">a\nB\n"`
yields `StartRecord` as its very first event, before any payload of the
first (and only) record, so a record-start event is produced other than on
a transition into a second or later record. -/
theorem claimC1_counterexample :
    collectF 100 (initFasta 16 inputOneRec) =
      some ([.startRecord, .idChunk [97], .seqChunk [66]], none) := by
  decide

/-- C2, counterexample: the observable output is *not* identical across
buffer capacities.  (1) On `">ab\r\nC\n"` (a CRLF identifier line) the
FASTA reader yields the identifier concatenation `"ab\r"` at capacity 4 but
`"ab"` at capacity 64, because a window boundary between the `'\r'` and the
`'\n'` defeats the CRLF trimming.  (2) On `"@r\nAC\n+AB\nXY\n"` (a
separator line with content) the FASTQ reader yields the per-record quality
concatenation `"AB"` (bytes of the separator line!) at capacity 1 but
`"XY"` at capacity 64. -/
theorem claimC2_counterexample :
    (collectF 100 (initFasta 4 inputCrId) =
       some ([.startRecord, .idChunk [97, 98, 13], .seqChunk [67]], none)) ∧
    (collectF 100 (initFasta 64 inputCrId) =
       some ([.startRecord, .idChunk [97, 98], .seqChunk [67]], none)) ∧
    ((collectQ 100 (initFastq 1 inputSep)).map (fun p => (goEv p.1).1.rqual) =
       some [65, 66]) ∧
    ((collectQ 100 (initFastq 64 inputSep)).map (fun p => (goEv p.1).1.rqual) =
       some [88, 89]) := by
  refine ⟨by decide, by decide, by decide, by decide⟩

/-- C3, counterexample: on the truncated FASTQ input `"@r\nAC\n"` (end of
input before any quality data) the reader yields a record with 2 sequence
bytes and 0 quality bytes and then reports clean end of stream, so the
quality/sequence length equality does not hold for every parsed record. -/
theorem claimC3_counterexample :
    collectQ 100 (initFastq 64 inputTrunc) =
      some ([.idChunk [114], .seqChunk [65, 67]], none) ∧
    seqTotal [.idChunk [114], .seqChunk [65, 67]] = 2 ∧
    qualTotal [.idChunk [114], .seqChunk [65, 67]] = 0 := by
  refine ⟨by decide, by decide, by decide⟩

/-- C4, counterexample: with buffer capacity 1 on `"@r\nAC\n+AB\nXY\n"`,
the bytes `'A','B'` (65, 66) of the separator line after the `'+'` are
emitted as `QualChunk` payloads: the separator line's content is *not*
entirely discarded when the line does not fit in the buffered window. -/
theorem claimC4_counterexample :
    collectQ 100 (initFastq 1 inputSep) =
      some ([.idChunk [114], .seqChunk [65], .seqChunk [67], .qualChunk [65],
             .qualChunk [66]], some (.invalidFormat 88 64)) := by
  decide

/-! ## Properties of the buffer refill -/

theorem fillF_cap (r : FastaReader) : (fillF r).cap = r.cap := by
  unfold fillF; split <;> rfl

theorem fillF_state (r : FastaReader) : (fillF r).state = r.state := by
  unfold fillF; split <;> rfl

theorem fillF_flat (r : FastaReader) :
    (fillF r).window ++ (fillF r).rest = r.window ++ r.rest := by
  unfold fillF
  split
  · next h =>
    simp only [List.isEmpty_iff] at h
    simp [h]
  · rfl

theorem fillF_of_ne_nil {r : FastaReader} (h : r.window ≠ []) : fillF r = r := by
  unfold fillF
  simp [List.isEmpty_iff, h]

theorem fillQ_cap (r : FastqReader) : (fillQ r).cap = r.cap := by
  unfold fillQ; split <;> rfl

theorem fillQ_state (r : FastqReader) : (fillQ r).state = r.state := by
  unfold fillQ; split <;> rfl

theorem fillQ_seqLen (r : FastqReader) : (fillQ r).seqLen = r.seqLen := by
  unfold fillQ; split <;> rfl

theorem fillQ_qualLen (r : FastqReader) : (fillQ r).qualLen = r.qualLen := by
  unfold fillQ; split <;> rfl

theorem fillQ_firstRecord (r : FastqReader) : (fillQ r).firstRecord = r.firstRecord := by
  unfold fillQ; split <;> rfl

theorem fillQ_flat (r : FastqReader) :
    (fillQ r).window ++ (fillQ r).rest = r.window ++ r.rest := by
  unfold fillQ
  split
  · next h =>
    simp only [List.isEmpty_iff] at h
    simp [h]
  · rfl

theorem fillQ_of_ne_nil {r : FastqReader} (h : r.window ≠ []) : fillQ r = r := by
  unfold fillQ
  simp [List.isEmpty_iff, h]

/-! ## C1: when is a record-start event produced? -/

theorem fastqScan_nextRecord {q q' : FastqReader}
    (h : fastqScan q = .yield (.event .nextRecord) q') : q.firstRecord = false := by
  unfold fastqScan at h
  rcases hw : q.window with _ | ⟨b0, w0⟩ <;> rw [hw] at h
  · simp at h
  · cases hst : q.state <;> rw [hst] at h <;> simp only at h
    · rcases hscan : scanIdx (fun c => !(c == 10 || c == 13)) (b0 :: w0) with _ | ⟨_ | pos⟩ <;>
        rw [hscan] at h <;> simp only at h
      · simp at h
      · by_cases hb : b0 = 62
        · simp [hb] at h
        · by_cases hb4 : b0 = 64
          · simp only [hb4, if_pos rfl] at h
            by_cases hfr : q.firstRecord
            · simp [hfr] at h
            · simpa using hfr
          · simp [hb4] at h
      · simp at h
    · rcases hscan : scanIdx (fun c => c == 10) (b0 :: w0) with _ | nl <;>
        rw [hscan] at h <;> simp only at h
      · simp at h
      · split at h <;> split at h <;> simp at h
    · split at h
      · rcases hscan : scanIdx (fun c => c == 10) (b0 :: w0) with _ | nl <;>
          rw [hscan] at h <;> simp at h
      · split at h
        · simp at h
        · split at h
          · simp at h
          · split at h <;> simp at h
    · split at h
      · simp at h
      · split at h <;> simp at h
    · split at h
      · simp at h
      · split at h
        · simp at h
        · split at h
          · simp at h
          · split at h <;> simp at h

/-- C1 (amended): on the FASTQ reader the record-start event (`NextRecord`)
is never produced before the first record begins: any call that returns
`NextRecord` starts from a reader whose `first_record` flag is already
cleared, and the flag is cleared exactly when the first record's `'@'`
marker is consumed (silently).  The FASTA reader, by contrast, emits its
record-start event (`StartRecord`) at the start of every record including
the first (see the counterexample). -/
theorem claimC1_amended : ∀ (r r' : FastqReader),
    fastqStep r = .yield (.event .nextRecord) r' → r.firstRecord = false := by
  intro r r' h
  have hq := @fastqScan_nextRecord (fillQ r) r' h
  rwa [fillQ_firstRecord] at hq

/-- Witness for C1 (amended): a concrete reader that yields `NextRecord`
indeed has its `first_record` flag cleared. -/
theorem claimC1_amended_witness :
    (⟨8, [64, 120, 10], [], .start, 0, 0, false⟩ : FastqReader).firstRecord = false :=
  claimC1_amended ⟨8, [64, 120, 10], [], .start, 0, 0, false⟩
    ⟨8, [120, 10], [], .id, 0, 0, false⟩ (by decide)

/-! ## C4: separator-line handling in the Sequence state -/

/-- C4 (amended): when the separator byte `'+'` is encountered at the start
of the buffered window in the `Sequence` state and the window contains the
line terminator at index `nl`, the step consumes the whole separator line
(all `nl + 1` bytes, discarding its content) without emitting any event and
transitions to the `Plus` state.  When the rest of the separator line lies
beyond the window, only the windowed part is discarded, and the remainder
can surface in later `QualChunk` events (see the counterexample). -/
theorem claimC4_amended : ∀ (r : FastqReader) (nl : Nat), r.state = .sequence →
    r.window.headD 0 = 43 →
    scanIdx (fun c => c == 10) r.window = some nl →
    fastqStep r = .cont { r with window := r.window.drop (nl + 1), state := .plus } := by
  intro r nl hst hb hscan
  rcases hw : r.window with _ | ⟨b0, w0⟩
  · rw [hw] at hb; simp at hb
  · rw [hw] at hb
    simp only [List.headD_cons] at hb
    have hfill : fillQ r = r := fillQ_of_ne_nil (by rw [hw]; simp)
    unfold fastqStep
    rw [hfill]
    unfold fastqScan
    rw [hw] at hscan ⊢
    rw [hb] at hscan
    simp [hst, hb, hscan]

/-- Witness for C4 (amended): a concrete Sequence-state reader whose window
starts with `"+AB\nI"` discards the whole separator line `"+AB\n"` in one
step and moves to the `Plus` state. -/
theorem claimC4_amended_witness :
    fastqStep (⟨4, [43, 65, 66, 10, 73], [], .sequence, 2, 0, false⟩ : FastqReader) =
      .cont ⟨4, [73], [], .plus, 2, 0, false⟩ :=
  claimC4_amended ⟨4, [43, 65, 66, 10, 73], [], .sequence, 2, 0, false⟩ 3
    rfl (by decide) (by decide)

/-! ## C8: quality chunks are capped at the remaining expected length -/

theorem scanIdxD_le_length (p : Nat → Bool) (l : List Nat) :
    scanIdxD p l ≤ l.length := by
  unfold scanIdxD
  cases h : scanIdx p l with
  | none => simp
  | some i =>
    simp only [Option.getD_some]
    exact Nat.le_of_lt (scanIdx_lt_length h)

theorem fastqScan_qualChunk {q q' : FastqReader} {bs : List Nat}
    (hst : q.state = .quality)
    (h : fastqScan q = .yield (.event (.qualChunk bs)) q') :
    bs.length ≤ q.seqLen - q.qualLen ∧
    q'.qualLen = q.qualLen + bs.length ∧
    (q'.state = .start ↔ q.qualLen + bs.length = q.seqLen) := by
  unfold fastqScan at h
  rcases hw : q.window with _ | ⟨b0, w0⟩ <;> rw [hw] at h
  · simp at h
  · rw [hst] at h
    simp only at h
    split at h
    · simp at h
    · split at h
      · simp at h
      · split at h
        · simp at h
        · split at h
          · simp at h
          · next hrem hce =>
            rw [StepRes.yield.injEq] at h
            obtain ⟨hbs, hq'⟩ := h
            rw [Out.event.injEq, Ev.qualChunk.injEq] at hbs
            have hlen : bs.length =
                min (scanIdxD (fun c => c == 10 || c == 13) (b0 :: w0)) (q.seqLen - q.qualLen) := by
              rw [← hbs]
              rw [List.length_take]
              have h1 : min (scanIdxD (fun c => c == 10 || c == 13) (b0 :: w0))
                  (q.seqLen - q.qualLen) ≤ (b0 :: w0).length :=
                le_trans (min_le_left _ _) (scanIdxD_le_length _ _)
              omega
            refine ⟨?_, ?_, ?_⟩
            · rw [hlen]; exact min_le_right _ _
            · rw [← hq']; simp [hlen]
            · rw [← hq']
              simp only
              have hle : bs.length ≤ q.seqLen - q.qualLen := by
                rw [hlen]; exact min_le_right _ _
              constructor
              · intro hs
                by_cases hcond : q.qualLen +
                    min (scanIdxD (fun c => c == 10 || c == 13) (b0 :: w0))
                      (q.seqLen - q.qualLen) ≥ q.seqLen
                · rw [hlen]; omega
                · simp [hcond] at hs
              · intro heq
                have hcond : q.qualLen +
                    min (scanIdxD (fun c => c == 10 || c == 13) (b0 :: w0))
                      (q.seqLen - q.qualLen) ≥ q.seqLen := by
                  rw [hlen] at heq; omega
                simp [hcond]

/-- C8: in the `Quality` state, every emitted `QualChunk` has length at most
`remaining = seq_len - qual_len` (even if the physical line is longer or no
terminator lies in the window); the emission adds the chunk length to
`qual_len`, and the state machine transitions back to `Start` with this
emission exactly when the updated `qual_len` reaches `seq_len`. -/
theorem claimC8 : ∀ (r r' : FastqReader) (bs : List Nat), r.state = .quality →
    fastqStep r = .yield (.event (.qualChunk bs)) r' →
    bs.length ≤ r.seqLen - r.qualLen ∧
    r'.qualLen = r.qualLen + bs.length ∧
    (r'.state = .start ↔ r.qualLen + bs.length = r.seqLen) := by
  intro r r' bs hst h
  have hq := @fastqScan_qualChunk (fillQ r) r' bs
    (by rw [fillQ_state, hst]) h
  rwa [fillQ_seqLen, fillQ_qualLen] at hq

/-- Witness for C8: a concrete Quality-state reader with `seq_len = 2`,
`qual_len = 0` and window `"II\n"` emits a 2-byte `QualChunk` and returns
to `Start`. -/
theorem claimC8_witness :
    ([73, 73] : List Nat).length ≤ 2 - 0 ∧
    (⟨8, [10], [], .start, 2, 2, false⟩ : FastqReader).qualLen = 0 + ([73, 73] : List Nat).length ∧
    ((⟨8, [10], [], .start, 2, 2, false⟩ : FastqReader).state = .start ↔
      0 + ([73, 73] : List Nat).length = 2) :=
  claimC8 ⟨8, [73, 73, 10], [], .quality, 2, 0, false⟩ ⟨8, [10], [], .start, 2, 2, false⟩
    [73, 73] rfl (by decide)

/-! ## C9: sequence chunks never contain line terminators -/

theorem fastaStep_seqChunk {r r' : FastaReader} {bs : List Nat}
    (h : fastaStep r = .yield (.event (.seqChunk bs)) r') :
    ∀ b ∈ bs, b ≠ 10 ∧ b ≠ 13 := by
  unfold fastaStep fastaScan at h
  rcases hw : (fillF r).window with _ | ⟨b0, w0⟩ <;> rw [hw] at h
  · simp at h
  · cases hst : (fillF r).state <;> rw [hst] at h <;> simp only at h
    · rcases hscan : scanIdx (fun c => !(c == 10 || c == 13)) (b0 :: w0) with _ | ⟨_ | pos⟩ <;>
        rw [hscan] at h <;> simp only at h
      · simp at h
      · split at h <;> simp at h
      · simp at h
    · rcases hscan : scanIdx (fun c => c == 10) (b0 :: w0) with _ | nl <;>
        rw [hscan] at h <;> simp only at h
      · simp at h
      · split at h <;> split at h <;> simp at h
    · split at h
      · simp at h
      · split at h
        · simp at h
        · split at h
          · simp at h
          · split at h
            · simp at h
            · rw [StepRes.yield.injEq, Out.event.injEq, Ev.seqChunk.injEq] at h
              obtain ⟨hbs, -⟩ := h
              intro b hb
              rw [← hbs] at hb
              have hp : (fun c => c == 10 || c == 13 || c == 62) b = false := by
                unfold scanIdxD at hb
                cases hs : scanIdx (fun c => c == 10 || c == 13 || c == 62) (b0 :: w0) with
                | none =>
                  rw [hs] at hb
                  simp only [Option.getD_none, List.take_length] at hb
                  exact scanIdx_none_all hs b hb
                | some i =>
                  rw [hs] at hb
                  simp only [Option.getD_some] at hb
                  exact scanIdx_take_all hs b hb
              simp at hp
              exact ⟨hp.1.1, hp.1.2⟩

theorem fastqStep_seqChunk {r r' : FastqReader} {bs : List Nat}
    (h : fastqStep r = .yield (.event (.seqChunk bs)) r') :
    ∀ b ∈ bs, b ≠ 10 ∧ b ≠ 13 := by
  unfold fastqStep fastqScan at h
  rcases hw : (fillQ r).window with _ | ⟨b0, w0⟩ <;> rw [hw] at h
  · simp at h
  · cases hst : (fillQ r).state <;> rw [hst] at h <;> simp only at h
    · rcases hscan : scanIdx (fun c => !(c == 10 || c == 13)) (b0 :: w0) with _ | ⟨_ | pos⟩ <;>
        rw [hscan] at h <;> simp only at h
      · simp at h
      · split at h
        · split at h <;> simp at h
        · simp at h
      · simp at h
    · rcases hscan : scanIdx (fun c => c == 10) (b0 :: w0) with _ | nl <;>
        rw [hscan] at h <;> simp only at h
      · simp at h
      · split at h <;> split at h <;> simp at h
    · split at h
      · rcases hscan : scanIdx (fun c => c == 10) (b0 :: w0) with _ | nl <;>
          rw [hscan] at h <;> simp at h
      · split at h
        · simp at h
        · split at h
          · simp at h
          · split at h
            · simp at h
            · rw [StepRes.yield.injEq, Out.event.injEq, Ev.seqChunk.injEq] at h
              obtain ⟨hbs, -⟩ := h
              intro b hb
              rw [← hbs] at hb
              have hp : (fun c => c == 10 || c == 13 || c == 43) b = false := by
                unfold scanIdxD at hb
                cases hs : scanIdx (fun c => c == 10 || c == 13 || c == 43) (b0 :: w0) with
                | none =>
                  rw [hs] at hb
                  simp only [Option.getD_none, List.take_length] at hb
                  exact scanIdx_none_all hs b hb
                | some i =>
                  rw [hs] at hb
                  simp only [Option.getD_some] at hb
                  exact scanIdx_take_all hs b hb
              simp at hp
              exact ⟨hp.1.1, hp.1.2⟩
    · split at h
      · simp at h
      · split at h <;> simp at h
    · split at h
      · simp at h
      · split at h
        · simp at h
        · split at h
          · simp at h
          · split at h <;> simp at h

theorem collectF_seqChunk_clean : ∀ (fuel : Nat) (r : FastaReader) (p : List Ev × Option Err),
    collectF fuel r = some p → ∀ bs, Ev.seqChunk bs ∈ p.1 → ∀ b ∈ bs, b ≠ 10 ∧ b ≠ 13 := by
  intro fuel
  induction fuel with
  | zero => intro r p h; simp [collectF] at h
  | succ f ih =>
    intro r p h bs hmem b hb
    rw [collectF] at h
    cases hstep : fastaStep r with
    | cont r' =>
      rw [hstep] at h
      exact ih r' p h bs hmem b hb
    | yield o r' =>
      rw [hstep] at h
      cases o with
      | eof =>
        simp only [Option.some.injEq] at h
        rw [← h] at hmem
        simp at hmem
      | error e =>
        simp only [Option.some.injEq] at h
        rw [← h] at hmem
        simp at hmem
      | event ev =>
        simp only at h
        cases hrec : collectF f r' with
        | none => rw [hrec] at h; simp at h
        | some q =>
          obtain ⟨evs, er⟩ := q
          rw [hrec] at h
          simp only [Option.some.injEq] at h
          rw [← h] at hmem
          simp only [List.mem_cons] at hmem
          rcases hmem with rfl | hmem'
          · exact fastaStep_seqChunk hstep b hb
          · exact ih r' (evs, er) hrec bs hmem' b hb

theorem collectQ_seqChunk_clean : ∀ (fuel : Nat) (r : FastqReader) (p : List Ev × Option Err),
    collectQ fuel r = some p → ∀ bs, Ev.seqChunk bs ∈ p.1 → ∀ b ∈ bs, b ≠ 10 ∧ b ≠ 13 := by
  intro fuel
  induction fuel with
  | zero => intro r p h; simp [collectQ] at h
  | succ f ih =>
    intro r p h bs hmem b hb
    rw [collectQ] at h
    cases hstep : fastqStep r with
    | cont r' =>
      rw [hstep] at h
      exact ih r' p h bs hmem b hb
    | yield o r' =>
      rw [hstep] at h
      cases o with
      | eof =>
        simp only [Option.some.injEq] at h
        rw [← h] at hmem
        simp at hmem
      | error e =>
        simp only [Option.some.injEq] at h
        rw [← h] at hmem
        simp at hmem
      | event ev =>
        simp only at h
        cases hrec : collectQ f r' with
        | none => rw [hrec] at h; simp at h
        | some q =>
          obtain ⟨evs, er⟩ := q
          rw [hrec] at h
          simp only [Option.some.injEq] at h
          rw [← h] at hmem
          simp only [List.mem_cons] at hmem
          rcases hmem with rfl | hmem'
          · exact fastqStep_seqChunk hstep b hb
          · exact ih r' (evs, er) hrec bs hmem' b hb

/-- C9: on every input and every buffer capacity (indeed from any reader
state whatsoever), every `SeqChunk` event emitted by either reader carries
a payload containing no line-terminator byte (neither `0x0A` nor
`0x0D`). -/
theorem claimC9_seq_chunks_clean :
    (∀ (fuel : Nat) (r : FastaReader) (p : List Ev × Option Err),
       collectF fuel r = some p → ∀ bs, Ev.seqChunk bs ∈ p.1 → ∀ b ∈ bs, b ≠ 10 ∧ b ≠ 13) ∧
    (∀ (fuel : Nat) (r : FastqReader) (p : List Ev × Option Err),
       collectQ fuel r = some p → ∀ bs, Ev.seqChunk bs ∈ p.1 → ∀ b ∈ bs, b ≠ 10 ∧ b ≠ 13) :=
  ⟨collectF_seqChunk_clean, collectQ_seqChunk_clean⟩

/-- Witness for C9: applied to the concrete run of `">a\nB\n"` at capacity
16, whose `SeqChunk` payload is `"B"` (byte 66). -/
theorem claimC9_witness : (66 : Nat) ≠ 10 ∧ (66 : Nat) ≠ 13 :=
  claimC9_seq_chunks_clean.1 100 (initFasta 16 inputOneRec)
    ([.startRecord, .idChunk [97], .seqChunk [66]], none) (by decide)
    [66] (by decide) 66 (by decide)

/-! ## C10: every `next_event` call terminates -/

theorem fillF_measure (r : FastaReader) :
    (fillF r).window.length + (fillF r).rest.length = r.window.length + r.rest.length := by
  have h := fillF_flat r
  have h1 := congrArg List.length h
  simpa using h1

theorem fillQ_measure (r : FastqReader) :
    (fillQ r).window.length + (fillQ r).rest.length = r.window.length + r.rest.length := by
  have h := fillQ_flat r
  have h1 := congrArg List.length h
  simpa using h1

theorem fastaScan_cont_measure {q r' : FastaReader} (h : fastaScan q = .cont r') :
    r'.window.length + r'.rest.length < q.window.length + q.rest.length := by
  unfold fastaScan at h
  rcases hw : q.window with _ | ⟨b0, w0⟩ <;> rw [hw] at h
  · exact absurd h (by simp)
  · cases hst : q.state <;> rw [hst] at h <;> simp only at h
    all_goals repeat' split at h
    all_goals injection h
    all_goals rename_i h2
    all_goals rw [← h2]
    all_goals simp [List.length_drop]
    all_goals omega

theorem fastqScan_cont_measure {q r' : FastqReader} (h : fastqScan q = .cont r') :
    3 * (r'.window.length + r'.rest.length) + rankQ r'.state <
      3 * (q.window.length + q.rest.length) + rankQ q.state := by
  unfold fastqScan at h
  rcases hw : q.window with _ | ⟨b0, w0⟩ <;> rw [hw] at h
  · exact absurd h (by simp)
  · cases hst : q.state <;> rw [hst] at h <;> simp only at h
    all_goals repeat' split at h
    all_goals injection h
    all_goals rename_i h2
    all_goals rw [← h2]
    all_goals simp [List.length_drop, rankQ]
    all_goals omega

theorem fastaNext_total : ∀ (fuel : Nat) (r : FastaReader),
    r.window.length + r.rest.length < fuel → (fastaNext fuel r).isSome := by
  intro fuel
  induction fuel with
  | zero => intro r h; omega
  | succ f ih =>
    intro r h
    rw [fastaNext]
    cases hstep : fastaStep r with
    | yield o r' => simp
    | cont r' =>
      simp only
      apply ih
      have hd := fastaScan_cont_measure (q := fillF r) hstep
      have hm := fillF_measure r
      omega

theorem fastqNext_total : ∀ (fuel : Nat) (r : FastqReader),
    3 * (r.window.length + r.rest.length) + rankQ r.state < fuel →
    (fastqNext fuel r).isSome := by
  intro fuel
  induction fuel with
  | zero => intro r h; omega
  | succ f ih =>
    intro r h
    rw [fastqNext]
    cases hstep : fastqStep r with
    | yield o r' => simp
    | cont r' =>
      simp only
      apply ih
      have hd := fastqScan_cont_measure (q := fillQ r) hstep
      have hm := fillQ_measure r
      rw [fillQ_state] at hd
      omega

/-- C10: for every reader over a finite in-memory input, `next_event`
terminates: with fuel exceeding the stated measure of the reader, the
fuelled loop always returns (`Some(Ok(event))`, `Some(Err(error))` or
`None`, i.e. never runs out of fuel).  Each loop iteration either consumes
at least one buffered byte or strictly decreases the state rank
(`Plus → Quality → Start`) without consuming. -/
theorem claimC10_termination :
    (∀ r : FastaReader, (fastaNext (r.window.length + r.rest.length + 1) r).isSome) ∧
    (∀ r : FastqReader,
       (fastqNext (3 * (r.window.length + r.rest.length) + rankQ r.state + 1) r).isSome) :=
  ⟨fun r => fastaNext_total _ r (by omega), fun r => fastqNext_total _ r (by omega)⟩

/-! ## C7: invalid record marker yields an error on the first pull -/

theorem scanIdx_cons_zero {p : Nat → Bool} {b0 : Nat} {w0 : List Nat}
    (h : scanIdx p (b0 :: w0) = some 0) : p b0 = true := by
  simp only [scanIdx] at h
  by_cases hb : p b0
  · exact hb
  · simp [hb] at h

theorem scanIdx_cons_succ {p : Nat → Bool} {b0 : Nat} {w0 : List Nat} {pos : Nat}
    (h : scanIdx p (b0 :: w0) = some (pos + 1)) :
    p b0 = false ∧ scanIdx p w0 = some pos := by
  simp only [scanIdx] at h
  by_cases hb : p b0
  · simp [hb] at h
  · refine ⟨Bool.eq_false_iff.mpr hb, ?_⟩
    rw [if_neg hb] at h
    cases hs : scanIdx p w0 with
    | none => rw [hs] at h; simp at h
    | some j =>
      rw [hs] at h
      simp at h
      subst h
      rfl

theorem dropWhile_append_all {p : Nat → Bool} :
    ∀ {w : List Nat} (t : List Nat), (∀ c ∈ w, p c = true) →
      List.dropWhile p (w ++ t) = List.dropWhile p t := by
  intro w
  induction w with
  | nil => intro t _; rfl
  | cons c cs ih =>
    intro t hall
    have hc : p c = true := hall c (by simp)
    simp only [List.cons_append, List.dropWhile_cons, hc, if_true]
    exact ih t (fun c' hc' => hall c' (by simp [hc']))

theorem fillF_window_nil {r : FastaReader} (hcap : 1 ≤ r.cap)
    (h : (fillF r).window = []) : r.window ++ r.rest = [] := by
  unfold fillF at h
  split at h
  · next he =>
    simp only [List.isEmpty_iff] at he
    rcases hr : r.rest with _ | ⟨c, cs⟩
    · simp [he, hr]
    · rw [hr] at h
      simp only at h
      rcases hc : r.cap with _ | n
      · omega
      · rw [hc] at h
        simp at h
  · next he =>
    simp only [List.isEmpty_iff] at he
    exact absurd h he

theorem fillQ_window_nil {r : FastqReader} (hcap : 1 ≤ r.cap)
    (h : (fillQ r).window = []) : r.window ++ r.rest = [] := by
  unfold fillQ at h
  split at h
  · next he =>
    simp only [List.isEmpty_iff] at he
    rcases hr : r.rest with _ | ⟨c, cs⟩
    · simp [he, hr]
    · rw [hr] at h
      simp only at h
      rcases hc : r.cap with _ | n
      · omega
      · rw [hc] at h
        simp at h
  · next he =>
    simp only [List.isEmpty_iff] at he
    exact absurd h he

theorem fastaNext_start_error : ∀ (fuel : Nat) (r : FastaReader) (b : Nat) (t : List Nat),
    r.state = .start → 1 ≤ r.cap →
    (r.window ++ r.rest).dropWhile (fun c => c == 10 || c == 13) = b :: t →
    b ≠ 62 → r.window.length + r.rest.length < fuel →
    ∃ r', fastaNext fuel r = some (.error (.invalidFormat b 62), r') := by
  intro fuel
  induction fuel with
  | zero => intro r b t _ _ _ _ h; omega
  | succ f ih =>
    intro r b t hst hcap hdrop hb hm
    have hqst : (fillF r).state = .start := by rw [fillF_state, hst]
    have hqflat : (fillF r).window ++ (fillF r).rest = r.window ++ r.rest := fillF_flat r
    have hqm : (fillF r).window.length + (fillF r).rest.length =
        r.window.length + r.rest.length := fillF_measure r
    rcases hw : (fillF r).window with _ | ⟨b0, w0⟩
    · exfalso
      have hnil := fillF_window_nil hcap hw
      rw [hnil] at hdrop
      simp at hdrop
    · rw [hw] at hqm hqflat
      rcases hscan : scanIdx (fun c => !(c == 10 || c == 13)) (b0 :: w0) with _ | ⟨_ | pos⟩
      · -- all window bytes are terminators: skip the window, recurse
        have hstep : fastaStep r =
            .cont ⟨(fillF r).cap, [], (fillF r).rest, .start⟩ := by
          unfold fastaStep fastaScan
          rw [hw, hqst]
          simp only [hscan]
        have hall : ∀ c ∈ (b0 :: w0), (fun c => c == 10 || c == 13) c = true := by
          intro c hc
          have hx := scanIdx_none_all hscan c hc
          cases hY : (c == 10 || c == 13)
          · rw [hY] at hx; simp at hx
          · exact hY
        have hdrop2 : List.dropWhile (fun c => c == 10 || c == 13) ((fillF r).rest) = b :: t := by
          rw [← hdrop, ← hqflat]
          exact (dropWhile_append_all _ hall).symm
        obtain ⟨r', hr'⟩ := ih ⟨(fillF r).cap, [], (fillF r).rest, .start⟩ b t rfl
          (by simpa [fillF_cap] using hcap) (by simpa using hdrop2) hb
          (by simp only [List.length_cons, List.length_nil] at hqm ⊢; omega)
        refine ⟨r', ?_⟩
        rw [fastaNext, hstep]
        exact hr'
      · -- first byte is not a terminator: it must be `b`, and the error fires
        have hb0 : (fun c => !(c == 10 || c == 13)) b0 = true := scanIdx_cons_zero hscan
        simp only [Bool.not_eq_eq_eq_not, Bool.not_true] at hb0
        have hbb : b0 = b ∧ (w0 ++ (fillF r).rest) = t := by
          rw [← hqflat] at hdrop
          simp only [List.cons_append, List.dropWhile_cons] at hdrop
          rw [hb0] at hdrop
          simp at hdrop
          exact hdrop
        obtain ⟨rfl, -⟩ := hbb
        have hstep : fastaStep r = .yield (.error (.invalidFormat b0 62)) (fillF r) := by
          unfold fastaStep fastaScan
          rw [hw, hqst]
          simp only [hscan]
          rw [if_neg hb]
        refine ⟨fillF r, ?_⟩
        rw [fastaNext, hstep]
      · -- a positive run of terminators: skip it, recurse
        have hstep : fastaStep r =
            .cont ⟨(fillF r).cap, (b0 :: w0).drop (pos + 1), (fillF r).rest, .start⟩ := by
          unfold fastaStep fastaScan
          rw [hw, hqst]
          simp only [hscan]
        have hlt : pos + 1 < (b0 :: w0).length := scanIdx_lt_length hscan
        have hall : ∀ c ∈ (b0 :: w0).take (pos + 1), (fun c => c == 10 || c == 13) c = true := by
          intro c hc
          have hx := scanIdx_take_all hscan c hc
          cases hY : (c == 10 || c == 13)
          · rw [hY] at hx; simp at hx
          · exact hY
        have hdrop2 : List.dropWhile (fun c => c == 10 || c == 13)
            ((b0 :: w0).drop (pos + 1) ++ (fillF r).rest) = b :: t := by
          rw [← hdrop, ← hqflat]
          conv_rhs => rw [← List.take_append_drop (pos + 1) (b0 :: w0)]
          rw [List.append_assoc]
          exact (dropWhile_append_all _ hall).symm
        obtain ⟨r', hr'⟩ := ih ⟨(fillF r).cap, (b0 :: w0).drop (pos + 1), (fillF r).rest, .start⟩
          b t rfl (by simpa [fillF_cap] using hcap) (by simpa using hdrop2) hb
          (by simp only [List.length_cons, List.length_drop] at hqm ⊢; omega)
        refine ⟨r', ?_⟩
        rw [fastaNext, hstep]
        exact hr'

theorem fastqNext_start_error : ∀ (fuel : Nat) (r : FastqReader) (b : Nat) (t : List Nat),
    r.state = .start → 1 ≤ r.cap →
    (r.window ++ r.rest).dropWhile (fun c => c == 10 || c == 13) = b :: t →
    b ≠ 64 → r.window.length + r.rest.length < fuel →
    ∃ r', fastqNext fuel r = some (.error (.invalidFormat b 64), r') := by
  intro fuel
  induction fuel with
  | zero => intro r b t _ _ _ _ h; omega
  | succ f ih =>
    intro r b t hst hcap hdrop hb hm
    have hqst : (fillQ r).state = .start := by rw [fillQ_state, hst]
    have hqflat : (fillQ r).window ++ (fillQ r).rest = r.window ++ r.rest := fillQ_flat r
    have hqm : (fillQ r).window.length + (fillQ r).rest.length =
        r.window.length + r.rest.length := fillQ_measure r
    rcases hw : (fillQ r).window with _ | ⟨b0, w0⟩
    · exfalso
      have hnil := fillQ_window_nil hcap hw
      rw [hnil] at hdrop
      simp at hdrop
    · rw [hw] at hqm hqflat
      rcases hscan : scanIdx (fun c => !(c == 10 || c == 13)) (b0 :: w0) with _ | ⟨_ | pos⟩
      · have hstep : fastqStep r =
            .cont ⟨(fillQ r).cap, [], (fillQ r).rest, .start,
                   (fillQ r).seqLen, (fillQ r).qualLen, (fillQ r).firstRecord⟩ := by
          unfold fastqStep fastqScan
          rw [hw, hqst]
          simp only [hscan]
        have hall : ∀ c ∈ (b0 :: w0), (fun c => c == 10 || c == 13) c = true := by
          intro c hc
          have hx := scanIdx_none_all hscan c hc
          cases hY : (c == 10 || c == 13)
          · rw [hY] at hx; simp at hx
          · exact hY
        have hdrop2 : List.dropWhile (fun c => c == 10 || c == 13) ((fillQ r).rest) = b :: t := by
          rw [← hdrop, ← hqflat]
          exact (dropWhile_append_all _ hall).symm
        obtain ⟨r', hr'⟩ := ih ⟨(fillQ r).cap, [], (fillQ r).rest, .start,
            (fillQ r).seqLen, (fillQ r).qualLen, (fillQ r).firstRecord⟩ b t rfl
          (by simpa [fillQ_cap] using hcap) (by simpa using hdrop2) hb
          (by simp only [List.length_cons, List.length_nil] at hqm ⊢; omega)
        refine ⟨r', ?_⟩
        rw [fastqNext, hstep]
        exact hr'
      · have hb0 : (fun c => !(c == 10 || c == 13)) b0 = true := scanIdx_cons_zero hscan
        simp only [Bool.not_eq_eq_eq_not, Bool.not_true] at hb0
        have hbb : b0 = b ∧ (w0 ++ (fillQ r).rest) = t := by
          rw [← hqflat] at hdrop
          simp only [List.cons_append, List.dropWhile_cons] at hdrop
          rw [hb0] at hdrop
          simp at hdrop
          exact hdrop
        obtain ⟨rfl, -⟩ := hbb
        have hstep : fastqStep r = .yield (.error (.invalidFormat b0 64)) (fillQ r) := by
          unfold fastqStep fastqScan
          rw [hw, hqst]
          simp only [hscan]
          rw [if_neg hb]
        refine ⟨fillQ r, ?_⟩
        rw [fastqNext, hstep]
      · have hstep : fastqStep r =
            .cont ⟨(fillQ r).cap, (b0 :: w0).drop (pos + 1), (fillQ r).rest, .start,
                   (fillQ r).seqLen, (fillQ r).qualLen, (fillQ r).firstRecord⟩ := by
          unfold fastqStep fastqScan
          rw [hw, hqst]
          simp only [hscan]
        have hall : ∀ c ∈ (b0 :: w0).take (pos + 1), (fun c => c == 10 || c == 13) c = true := by
          intro c hc
          have hx := scanIdx_take_all hscan c hc
          cases hY : (c == 10 || c == 13)
          · rw [hY] at hx; simp at hx
          · exact hY
        have hdrop2 : List.dropWhile (fun c => c == 10 || c == 13)
            ((b0 :: w0).drop (pos + 1) ++ (fillQ r).rest) = b :: t := by
          rw [← hdrop, ← hqflat]
          conv_rhs => rw [← List.take_append_drop (pos + 1) (b0 :: w0)]
          rw [List.append_assoc]
          exact (dropWhile_append_all _ hall).symm
        obtain ⟨r', hr'⟩ := ih ⟨(fillQ r).cap, (b0 :: w0).drop (pos + 1), (fillQ r).rest, .start,
            (fillQ r).seqLen, (fillQ r).qualLen, (fillQ r).firstRecord⟩
          b t rfl (by simpa [fillQ_cap] using hcap) (by simpa using hdrop2) hb
          (by simp only [List.length_cons, List.length_drop] at hqm ⊢; omega)
        refine ⟨r', ?_⟩
        rw [fastqNext, hstep]
        exact hr'

/-- C7: for every input whose first byte after skipping leading
line-terminator bytes is not the format's record-marker byte, the first
pull on the reader yields a fatal `InvalidFormat` error identifying the
offending byte (and, since it is the first pull, no event precedes it). -/
theorem claimC7_invalid_marker : ∀ (input : List Nat) (cap b : Nat) (t : List Nat), 1 ≤ cap →
    input.dropWhile (fun c => c == 10 || c == 13) = b :: t →
    (b ≠ 62 → ∃ r', fastaNext (input.length + 1) (initFasta cap input) =
        some (.error (.invalidFormat b 62), r')) ∧
    (b ≠ 64 → ∃ r', fastqNext (input.length + 1) (initFastq cap input) =
        some (.error (.invalidFormat b 64), r')) := by
  intro input cap b t hcap hdrop
  constructor
  · intro hb
    exact fastaNext_start_error (input.length + 1) (initFasta cap input) b t rfl hcap
      (by simpa using hdrop) hb (by simp [initFasta])
  · intro hb
    exact fastqNext_start_error (input.length + 1) (initFastq cap input) b t rfl hcap
      (by simpa using hdrop) hb (by simp [initFastq])

/-- Witness for C7: the input `"\nX"` (first non-terminator byte `'X'` = 88)
at capacity 2 produces the `InvalidFormat` error on the first pull of both
readers. -/
theorem claimC7_witness :
    ((88 : Nat) ≠ 62 → ∃ r', fastaNext (([10, 88] : List Nat).length + 1) (initFasta 2 [10, 88]) =
        some (.error (.invalidFormat 88 62), r')) ∧
    ((88 : Nat) ≠ 64 → ∃ r', fastqNext (([10, 88] : List Nat).length + 1) (initFastq 2 [10, 88]) =
        some (.error (.invalidFormat 88 64), r')) :=
  claimC7_invalid_marker [10, 88] 2 88 [] (by decide) (by decide)

/-! ## C3: quality length equals sequence length for completed records -/

theorem fastqScan_counters {q r' : FastqReader} (hinv : q.qualLen ≤ q.seqLen)
    (hs : fastqScan q = .cont r' ∨ ∃ o, fastqScan q = .yield o r') :
    r'.qualLen ≤ r'.seqLen := by
  rcases hs with h | ⟨o, h⟩ <;>
    (unfold fastqScan at h
     rcases hw : q.window with _ | ⟨b0, w0⟩ <;> rw [hw] at h
     · injection h
       all_goals rename_i h2
       all_goals rw [← h2]
       all_goals exact hinv
     · cases hst : q.state <;> rw [hst] at h <;> simp only at h
       all_goals repeat' split at h
       all_goals injection h
       all_goals rename_i h2
       all_goals rw [← h2]
       all_goals try simp only
       all_goals omega)

theorem qreach_counters {r0 r : FastqReader} (h : QReach r0 r)
    (h0 : r0.qualLen ≤ r0.seqLen) : r.qualLen ≤ r.seqLen := by
  induction h with
  | refl => exact h0
  | step h hs ih =>
    exact fastqScan_counters (by rw [fillQ_qualLen, fillQ_seqLen]; exact ih) hs

theorem fastqScan_quality_to_start {q r' : FastqReader}
    (hstq : q.state = .quality) (hinv : q.qualLen ≤ q.seqLen)
    (hs : fastqScan q = .cont r' ∨ ∃ o, fastqScan q = .yield o r')
    (hst' : r'.state = .start) :
    r'.qualLen = r'.seqLen := by
  have hqs : QState.quality ≠ QState.start := by decide
  rcases hs with h | ⟨o, h⟩ <;>
    (unfold fastqScan at h
     rcases hw : q.window with _ | ⟨b0, w0⟩ <;> rw [hw] at h
     · injection h
       all_goals rename_i h2
       all_goals rw [← h2] at hst'
       all_goals rw [hstq] at hst'
       all_goals exact absurd hst' hqs
     · rw [hstq] at h
       simp only at h
       repeat' split at h
       all_goals injection h
       all_goals rename_i h2
       all_goals rw [← h2] at hst'
       all_goals try simp only at hst'
       all_goals try exact absurd hst' hqs
       all_goals rw [← h2]
       all_goals simp only
       all_goals omega)

/-- C3 (amended): for every record that the FASTQ reader *completes* — the
state machine returns to `Start` from the `Quality` state — the total
number of bytes yielded across all `QualChunk` events for that record
(tracked in `qual_len`) equals the total across all `SeqChunk` events
(tracked in `seq_len`).  On truncated input a record may end (at end of
stream) with fewer quality bytes than sequence bytes (see the
counterexample). -/
theorem claimC3_amended : ∀ (cap : Nat) (input : List Nat) (r r' : FastqReader),
    QReach (initFastq cap input) r →
    (fastqStep r = .cont r' ∨ ∃ o, fastqStep r = .yield o r') →
    r.state = .quality → r'.state = .start →
    r'.qualLen = r'.seqLen := by
  intro cap input r r' hreach hs hq hs'
  have hinv : r.qualLen ≤ r.seqLen := qreach_counters hreach (by simp [initFastq])
  exact fastqScan_quality_to_start (q := fillQ r)
    (by rw [fillQ_state, hq]) (by rw [fillQ_qualLen, fillQ_seqLen]; exact hinv) hs hs'

/-- Witness for C3 (amended): on the input `"@\nA\n+\nI"` at capacity 64 the
reader reaches the `Quality` state and steps back to `Start`, at which
point `qual_len = seq_len` (= 1). -/
theorem claimC3_amended_witness :
    (⟨64, [], [], QState.start, 1, 1, false⟩ : FastqReader).qualLen =
      (⟨64, [], [], QState.start, 1, 1, false⟩ : FastqReader).seqLen := by
  have h0 : QReach (initFastq 64 [64, 10, 65, 10, 43, 10, 73])
      (initFastq 64 [64, 10, 65, 10, 43, 10, 73]) := QReach.refl _
  have h1 : QReach (initFastq 64 [64, 10, 65, 10, 43, 10, 73])
      (⟨64, [10, 65, 10, 43, 10, 73], [], QState.id, 0, 0, false⟩ : FastqReader) :=
    QReach.step h0 (Or.inl (by decide))
  have h2 : QReach (initFastq 64 [64, 10, 65, 10, 43, 10, 73])
      (⟨64, [65, 10, 43, 10, 73], [], QState.sequence, 0, 0, false⟩ : FastqReader) :=
    QReach.step h1 (Or.inl (by decide))
  have h3 : QReach (initFastq 64 [64, 10, 65, 10, 43, 10, 73])
      (⟨64, [10, 43, 10, 73], [], QState.sequence, 1, 0, false⟩ : FastqReader) :=
    QReach.step h2 (Or.inr ⟨.event (.seqChunk [65]), by decide⟩)
  have h4 : QReach (initFastq 64 [64, 10, 65, 10, 43, 10, 73])
      (⟨64, [43, 10, 73], [], QState.sequence, 1, 0, false⟩ : FastqReader) :=
    QReach.step h3 (Or.inl (by decide))
  have h5 : QReach (initFastq 64 [64, 10, 65, 10, 43, 10, 73])
      (⟨64, [73], [], QState.plus, 1, 0, false⟩ : FastqReader) :=
    QReach.step h4 (Or.inl (by decide))
  have h6 : QReach (initFastq 64 [64, 10, 65, 10, 43, 10, 73])
      (⟨64, [73], [], QState.quality, 1, 0, false⟩ : FastqReader) :=
    QReach.step h5 (Or.inl (by decide))
  exact claimC3_amended 64 [64, 10, 65, 10, 43, 10, 73]
    ⟨64, [73], [], QState.quality, 1, 0, false⟩
    ⟨64, [], [], QState.start, 1, 1, false⟩ h6
    (Or.inr ⟨.event (.qualChunk [73]), by decide⟩) rfl rfl

/-! ## Equation lemmas for the canonical parsers -/

theorem absFasta_nil (st : FState) : absFasta st [] = ([], none) := by
  rw [absFasta.eq_def]

theorem absFasta_start_term {b0 : Nat} (s0 : List Nat) (h : b0 = 10 ∨ b0 = 13) :
    absFasta .start (b0 :: s0) = absFasta .start s0 := by
  conv_lhs => rw [absFasta.eq_def]
  simp [h]

theorem absFasta_start_marker (s0 : List Nat) :
    absFasta .start (62 :: s0) =
      (.startRecord :: (absFasta .id s0).1, (absFasta .id s0).2) := by
  conv_lhs => rw [absFasta.eq_def]
  simp

theorem absFasta_start_err {b0 : Nat} (s0 : List Nat)
    (h1 : b0 ≠ 10) (h2 : b0 ≠ 13) (h3 : b0 ≠ 62) :
    absFasta .start (b0 :: s0) = ([], some (.invalidFormat b0 62)) := by
  conv_lhs => rw [absFasta.eq_def]
  simp [h1, h2, h3]

theorem absFasta_id {b0 : Nat} (s0 : List Nat) :
    absFasta .id (b0 :: s0) =
      (match scanIdx (fun c => c == 10) (b0 :: s0) with
       | some nl =>
         let e := if 0 < nl ∧ (b0 :: s0).getD (nl - 1) 0 = 13 then nl - 1 else nl
         let p := absFasta .sequence ((b0 :: s0).drop (nl + 1))
         if 0 < e then (.idChunk ((b0 :: s0).take e) :: p.1, p.2) else p
       | none => ([.idChunk (b0 :: s0)], none)) := by
  conv_lhs => rw [absFasta.eq_def]

theorem absFasta_seq_nl (s0 : List Nat) :
    absFasta .sequence (10 :: s0) = absFasta .sequence s0 := by
  conv_lhs => rw [absFasta.eq_def]
  simp

theorem absFasta_seq_marker (s0 : List Nat) :
    absFasta .sequence (62 :: s0) =
      (.startRecord :: (absFasta .id s0).1, (absFasta .id s0).2) := by
  conv_lhs => rw [absFasta.eq_def]
  simp

theorem absFasta_seq_chunk {b0 : Nat} (s0 : List Nat)
    (h1 : b0 ≠ 10) (h2 : b0 ≠ 13) (h3 : b0 ≠ 62) :
    absFasta .sequence (b0 :: s0) =
      (.seqChunk ((b0 :: s0).take (scanIdxD (fun c => c == 10 || c == 13 || c == 62) s0 + 1)) ::
         (absFasta .sequence (s0.drop (scanIdxD (fun c => c == 10 || c == 13 || c == 62) s0))).1,
       (absFasta .sequence (s0.drop (scanIdxD (fun c => c == 10 || c == 13 || c == 62) s0))).2) := by
  conv_lhs => rw [absFasta.eq_def]
  simp [h1, h2, h3]

/-! ## More helper lemmas for the capacity-invariance proof -/

theorem take_append_len : ∀ (w t : List Nat) (n : Nat),
    (w ++ t).take (w.length + n) = w ++ t.take n := by
  intro w
  induction w with
  | nil => intro t n; simp
  | cons c cs ih =>
    intro t n
    simp only [List.cons_append, List.length_cons]
    rw [show cs.length + 1 + n = (cs.length + n) + 1 by omega]
    simp only [List.take_succ_cons, List.cons_inj_right]
    exact ih t n

theorem drop_append_len : ∀ (w t : List Nat) (n : Nat),
    (w ++ t).drop (w.length + n) = t.drop n := by
  intro w
  induction w with
  | nil => intro t n; simp
  | cons c cs ih =>
    intro t n
    simp only [List.cons_append, List.length_cons]
    rw [show cs.length + 1 + n = (cs.length + n) + 1 by omega]
    simp only [List.drop_succ_cons]
    exact ih t n

theorem getD_mem : ∀ (l : List Nat) (n : Nat), n < l.length → l.getD n 0 ∈ l := by
  intro l
  induction l with
  | nil => intro n h; simp at h
  | cons c cs ih =>
    intro n h
    cases n with
    | zero => simp
    | succ m =>
      simp only [List.getD_cons_succ]
      exact List.mem_cons_of_mem _ (ih m (by simpa using h))

theorem scanIdxD_cons_false {p : Nat → Bool} {b0 : Nat} (s0 : List Nat)
    (h : p b0 = false) : scanIdxD p (b0 :: s0) = scanIdxD p s0 + 1 := by
  unfold scanIdxD
  simp only [scanIdx, h, Bool.false_eq_true, if_false]
  cases scanIdx p s0 <;> simp

theorem scanIdxD_append_none {p : Nat → Bool} {w : List Nat} (t : List Nat)
    (h : scanIdx p w = none) : scanIdxD p (w ++ t) = w.length + scanIdxD p t := by
  unfold scanIdxD
  rw [scanIdx_append_none t h]
  cases scanIdx p t <;> simp
  omega

theorem goEv_cons (e : Ev) (evs : List Ev) : goEv (e :: evs) = pushEv e (goEv evs) := rfl

theorem obs_cons_cong {e : Ev} {p q : List Ev × Option Err} (h : obs p = obs q) :
    obs (e :: p.1, p.2) = obs (e :: q.1, q.2) := by
  unfold obs at h ⊢
  simp only [Prod.mk.injEq] at h ⊢
  rw [goEv_cons, goEv_cons, h.1, h.2]
  exact ⟨rfl, rfl⟩

theorem pushEv_id_id (a b : List Nat) (x : Rec × List Rec) :
    pushEv (.idChunk a) (pushEv (.idChunk b) x) = pushEv (.idChunk (a ++ b)) x := by
  obtain ⟨cur, recs⟩ := x
  simp [pushEv, List.append_assoc]

theorem pushEv_seq_seq (a b : List Nat) (x : Rec × List Rec) :
    pushEv (.seqChunk a) (pushEv (.seqChunk b) x) = pushEv (.seqChunk (a ++ b)) x := by
  obtain ⟨cur, recs⟩ := x
  simp [pushEv, List.append_assoc]

theorem pushEv_qual_qual (a b : List Nat) (x : Rec × List Rec) :
    pushEv (.qualChunk a) (pushEv (.qualChunk b) x) = pushEv (.qualChunk (a ++ b)) x := by
  obtain ⟨cur, recs⟩ := x
  simp [pushEv, List.append_assoc]

theorem absFasta_start_skip : ∀ (w t : List Nat), (∀ c ∈ w, c = 10 ∨ c = 13) →
    absFasta .start (w ++ t) = absFasta .start t := by
  intro w
  induction w with
  | nil => intro t _; rfl
  | cons c cs ih =>
    intro t hall
    rw [List.cons_append, absFasta_start_term _ (hall c (by simp))]
    exact ih t (fun c' hc' => hall c' (by simp [hc']))

theorem scanIdx_cons_none {p : Nat → Bool} {b0 : Nat} {w0 : List Nat}
    (h : scanIdx p (b0 :: w0) = none) : p b0 = false ∧ scanIdx p w0 = none := by
  simp only [scanIdx] at h
  by_cases hb : p b0
  · simp [hb] at h
  · refine ⟨Bool.eq_false_iff.mpr hb, ?_⟩
    rw [if_neg hb] at h
    cases hs : scanIdx p w0 with
    | none => rfl
    | some j => rw [hs] at h; simp at h

theorem absFasta_id_some {b0 : Nat} {s0 : List Nat} {nl : Nat}
    (h : scanIdx (fun c => c == 10) (b0 :: s0) = some nl) :
    absFasta .id (b0 :: s0) =
      (if 0 < (if 0 < nl ∧ (b0 :: s0).getD (nl - 1) 0 = 13 then nl - 1 else nl) then
        (.idChunk ((b0 :: s0).take
            (if 0 < nl ∧ (b0 :: s0).getD (nl - 1) 0 = 13 then nl - 1 else nl)) ::
           (absFasta .sequence ((b0 :: s0).drop (nl + 1))).1,
         (absFasta .sequence ((b0 :: s0).drop (nl + 1))).2)
       else absFasta .sequence ((b0 :: s0).drop (nl + 1))) := by
  rw [absFasta_id, h]

theorem absFasta_id_none {b0 : Nat} {s0 : List Nat}
    (h : scanIdx (fun c => c == 10) (b0 :: s0) = none) :
    absFasta .id (b0 :: s0) = ([.idChunk (b0 :: s0)], none) := by
  rw [absFasta_id, h]

theorem absFasta_id_some_clean {b0 : Nat} {s0 : List Nat} {nl : Nat}
    (h : scanIdx (fun c => c == 10) (b0 :: s0) = some nl)
    (hgd : ¬(0 < nl ∧ (b0 :: s0).getD (nl - 1) 0 = 13)) (hnl : 0 < nl) :
    absFasta .id (b0 :: s0) =
      (.idChunk ((b0 :: s0).take nl) ::
         (absFasta .sequence ((b0 :: s0).drop (nl + 1))).1,
       (absFasta .sequence ((b0 :: s0).drop (nl + 1))).2) := by
  rw [absFasta_id_some h, if_neg hgd, if_pos hnl]

theorem absFasta_id_some_zero {b0 : Nat} {s0 : List Nat}
    (h : scanIdx (fun c => c == 10) (b0 :: s0) = some 0) :
    absFasta .id (b0 :: s0) = absFasta .sequence ((b0 :: s0).drop 1) := by
  rw [absFasta_id_some h]
  simp

theorem obs_id_split (w t : List Nat) (hw : w ≠ [])
    (hscan : scanIdx (fun c => c == 10) w = none)
    (hcr : ∀ b ∈ w ++ t, b ≠ 13) :
    obs (.idChunk w :: (absFasta .id t).1, (absFasta .id t).2) =
      obs (absFasta .id (w ++ t)) := by
  rcases hwc : w with _ | ⟨b0, w0⟩
  · exact absurd hwc hw
  rw [← hwc]
  have hws : scanIdx (fun c => c == 10) (w ++ t) =
      (scanIdx (fun c => c == 10) t).map (· + w.length) := scanIdx_append_none t hscan
  have hwt : w ++ t = b0 :: (w0 ++ t) := by rw [hwc]; rfl
  cases hst : scanIdx (fun c => c == 10) t with
  | none =>
    rw [hst] at hws
    simp only [Option.map_none'] at hws
    have hrhs : absFasta .id (w ++ t) = ([.idChunk (w ++ t)], none) := by
      rw [hwt]
      exact absFasta_id_none (by rw [← hwt, hws])
    rw [hrhs]
    rcases t with _ | ⟨c, t'⟩
    · rw [absFasta_nil]
      simp only [obs, Prod.mk.injEq]
      refine ⟨?_, trivial⟩
      rw [goEv_cons, goEv_cons]
      simp [goEv, pushEv]
    · have hlhs : absFasta .id (c :: t') = ([.idChunk (c :: t')], none) :=
        absFasta_id_none hst
      rw [hlhs]
      simp only [obs, Prod.mk.injEq]
      refine ⟨?_, trivial⟩
      rw [goEv_cons, goEv_cons, goEv_cons, pushEv_id_id]
  | some k =>
    rw [hst] at hws
    simp only [Option.map_some'] at hws
    have hkt : k < t.length := scanIdx_lt_length hst
    have htne : t ≠ [] := by rintro rfl; simp [scanIdx] at hst
    have hlen : k + w.length < (w ++ t).length := by simp; omega
    have hwpos : 0 < w.length := by rw [hwc]; simp
    have hgd : ¬(0 < k + w.length ∧ (w ++ t).getD (k + w.length - 1) 0 = 13) := by
      rintro ⟨-, hx⟩
      exact hcr _ (getD_mem _ _ (by omega)) hx
    have hrhs : absFasta .id (w ++ t) =
        (.idChunk ((w ++ t).take (k + w.length)) ::
           (absFasta .sequence ((w ++ t).drop (k + w.length + 1))).1,
         (absFasta .sequence ((w ++ t).drop (k + w.length + 1))).2) := by
      rw [hwt]
      exact absFasta_id_some_clean (by rw [← hwt, hws]) (by rw [← hwt]; exact hgd)
        (by omega)
    rw [hrhs]
    have htake : (w ++ t).take (k + w.length) = w ++ t.take k := by
      rw [show k + w.length = w.length + k from by omega]
      exact take_append_len w t k
    have hdrop : (w ++ t).drop (k + w.length + 1) = t.drop (k + 1) := by
      rw [show k + w.length + 1 = w.length + (k + 1) from by omega]
      exact drop_append_len w t (k + 1)
    rw [htake, hdrop]
    rcases htc : t with _ | ⟨c, t'⟩
    · exact absurd htc htne
    rw [← htc]
    have hgdt : ¬(0 < k ∧ t.getD (k - 1) 0 = 13) := by
      rintro ⟨hk, hx⟩
      refine hcr _ ?_ hx
      rw [List.mem_append]
      right
      exact getD_mem _ _ (by omega)
    by_cases hk : 0 < k
    · have hlhs : absFasta .id t =
          (.idChunk (t.take k) :: (absFasta .sequence (t.drop (k + 1))).1,
           (absFasta .sequence (t.drop (k + 1))).2) := by
        rw [htc]
        exact absFasta_id_some_clean (by rw [← htc, hst]) (by rw [← htc]; exact hgdt) hk
      rw [hlhs]
      simp only [obs, Prod.mk.injEq]
      refine ⟨?_, trivial⟩
      rw [goEv_cons, goEv_cons, goEv_cons, pushEv_id_id]
    · have hk0 : k = 0 := by omega
      subst hk0
      have hlhs : absFasta .id t = absFasta .sequence (t.drop 1) := by
        rw [htc]
        exact absFasta_id_some_zero (by rw [← htc, hst])
      rw [hlhs]
      simp only [obs, Prod.mk.injEq, List.take_zero, List.append_nil]

theorem obs_seq_split (w t : List Nat) (hw : w ≠ [])
    (hscan : scanIdx (fun c => c == 10 || c == 13 || c == 62) w = none)
    (hcr : ∀ b ∈ w ++ t, b ≠ 13) :
    obs (.seqChunk w :: (absFasta .sequence t).1, (absFasta .sequence t).2) =
      obs (absFasta .sequence (w ++ t)) := by
  rcases hwc : w with _ | ⟨b0, w0⟩
  · exact absurd hwc hw
  rw [← hwc]
  have h0 := scanIdx_cons_none (p := fun c => c == 10 || c == 13 || c == 62) (hwc ▸ hscan)
  have hb0 : b0 ≠ 10 ∧ b0 ≠ 13 ∧ b0 ≠ 62 := by
    have := h0.1
    simp at this
    exact ⟨this.1.1, this.1.2, this.2⟩
  have hwt : w ++ t = b0 :: (w0 ++ t) := by rw [hwc]; rfl
  have hsD : scanIdxD (fun c => c == 10 || c == 13 || c == 62) (w0 ++ t) =
      w0.length + scanIdxD (fun c => c == 10 || c == 13 || c == 62) t :=
    scanIdxD_append_none t h0.2
  have hrhs : absFasta .sequence (w ++ t) =
      (.seqChunk (w ++ t.take (scanIdxD (fun c => c == 10 || c == 13 || c == 62) t)) ::
         (absFasta .sequence (t.drop (scanIdxD (fun c => c == 10 || c == 13 || c == 62) t))).1,
       (absFasta .sequence (t.drop (scanIdxD (fun c => c == 10 || c == 13 || c == 62) t))).2) := by
    rw [hwt, absFasta_seq_chunk (w0 ++ t) hb0.1 hb0.2.1 hb0.2.2, ← hwt, hsD]
    have ht1 : (w ++ t).take (w0.length +
        scanIdxD (fun c => c == 10 || c == 13 || c == 62) t + 1) =
        w ++ t.take (scanIdxD (fun c => c == 10 || c == 13 || c == 62) t) := by
      rw [show w0.length + scanIdxD (fun c => c == 10 || c == 13 || c == 62) t + 1 =
          w.length + scanIdxD (fun c => c == 10 || c == 13 || c == 62) t from by
        rw [hwc]; simp; omega]
      exact take_append_len w t _
    have ht2 : (w0 ++ t).drop (w0.length +
        scanIdxD (fun c => c == 10 || c == 13 || c == 62) t) =
        t.drop (scanIdxD (fun c => c == 10 || c == 13 || c == 62) t) :=
      drop_append_len w0 t _
    rw [ht1, ht2]
  rw [hrhs]
  rcases htc : t with _ | ⟨c, t'⟩
  · simp only [absFasta_nil, scanIdxD, scanIdx, Option.getD_none, List.length_nil,
      List.take_zero, List.append_nil, List.drop_zero]
  rw [← htc]
  by_cases hp3c : (fun c => c == 10 || c == 13 || c == 62) c = true
  · have hsc : scanIdx (fun c => c == 10 || c == 13 || c == 62) t = some 0 := by
      rw [htc]
      simp only [scanIdx, hp3c, if_true]
    have hscD : scanIdxD (fun c => c == 10 || c == 13 || c == 62) t = 0 := by
      unfold scanIdxD
      rw [hsc]
      rfl
    rw [hscD]
    simp only [List.take_zero, List.append_nil, List.drop_zero]
  · have hc : c ≠ 10 ∧ c ≠ 13 ∧ c ≠ 62 := by
      simp at hp3c
      exact ⟨hp3c.1.1, hp3c.1.2, hp3c.2⟩
    have hlhs : absFasta .sequence t =
        (.seqChunk (t.take (scanIdxD (fun c => c == 10 || c == 13 || c == 62) t' + 1)) ::
           (absFasta .sequence (t'.drop (scanIdxD (fun c => c == 10 || c == 13 || c == 62) t'))).1,
         (absFasta .sequence (t'.drop (scanIdxD (fun c => c == 10 || c == 13 || c == 62) t'))).2) := by
      rw [htc, absFasta_seq_chunk t' hc.1 hc.2.1 hc.2.2, ← htc]
    have hscD : scanIdxD (fun c => c == 10 || c == 13 || c == 62) t =
        scanIdxD (fun c => c == 10 || c == 13 || c == 62) t' + 1 := by
      rw [htc]
      exact scanIdxD_cons_false t' (Bool.eq_false_iff.mpr hp3c)
    have hdropt : t.drop (scanIdxD (fun c => c == 10 || c == 13 || c == 62) t' + 1) =
        t'.drop (scanIdxD (fun c => c == 10 || c == 13 || c == 62) t') := by
      rw [htc]
      rfl
    rw [hlhs, hscD, hdropt]
    simp only [obs, Prod.mk.injEq]
    refine ⟨?_, trivial⟩
    rw [goEv_cons, goEv_cons, goEv_cons, pushEv_seq_seq]

theorem collectF_cons_step {fuel : Nat} {r r2 : FastaReader} {ev : Ev}
    {A : List Ev × Option Err}
    (hstep : fastaStep r = .yield (.event ev) r2)
    (hrec : (collectF fuel r2).map obs = some (obs A)) :
    (collectF (fuel + 1) r).map obs = some (obs (ev :: A.1, A.2)) := by
  rw [collectF, hstep]
  simp only []
  obtain ⟨p, hp, hobs⟩ := Option.map_eq_some'.mp hrec
  obtain ⟨evs, er⟩ := p
  rw [hp]
  simp only [Option.map_some']
  exact congrArg some (obs_cons_cong hobs)

theorem fastaSim : ∀ (fuel : Nat) (r : FastaReader) (s : List Nat),
    r.window ++ r.rest = s → 1 ≤ r.cap → (∀ b ∈ s, b ≠ 13) →
    3 * s.length + 2 ≤ fuel →
    (collectF fuel r).map obs = some (obs (absFasta r.state s)) := by
  intro fuel
  induction fuel with
  | zero => intro r s _ _ _ hf; omega
  | succ f ih =>
    intro r s hflat hcap hcr hf
    have hqflat0 : (fillF r).window ++ (fillF r).rest = s := by
      rw [fillF_flat]; exact hflat
    rcases hw : (fillF r).window with _ | ⟨b0, w0⟩
    · have hnil : r.window ++ r.rest = [] := fillF_window_nil hcap hw
      have hs0 : s = [] := by rw [← hflat, hnil]
      have hstep : fastaStep r = .yield .eof (fillF r) := by
        unfold fastaStep fastaScan
        rw [hw]
      rw [collectF, hstep]
      try simp only []
      rw [hs0, absFasta_nil]
      rfl
    · rw [hw] at hqflat0
      have hcap2 : 1 ≤ (fillF r).cap := by rw [fillF_cap]; exact hcap
      have hlens : w0.length + 1 + (fillF r).rest.length = s.length := by
        rw [← hqflat0]; simp; omega
      have hmemw : ∀ b ∈ b0 :: w0, b ≠ 13 := by
        intro b hb
        exact hcr b (by rw [← hqflat0]; exact List.mem_append_left _ hb)
      have hmemr : ∀ b ∈ (fillF r).rest, b ≠ 13 := by
        intro b hb
        exact hcr b (by rw [← hqflat0]; exact List.mem_append_right _ hb)
      have hsc : s = b0 :: (w0 ++ (fillF r).rest) := by rw [← hqflat0]; rfl
      cases hst : r.state with
      | start =>
        have hqst : (fillF r).state = .start := by rw [fillF_state, hst]
        rcases hscan : scanIdx (fun c => !(c == 10 || c == 13)) (b0 :: w0) with _ | ⟨_ | pos⟩
        · -- the whole window is line terminators
          have hstep : fastaStep r = .cont ⟨(fillF r).cap, [], (fillF r).rest, .start⟩ := by
            unfold fastaStep fastaScan
            rw [hw, hqst]
            simp only [hscan]
          rw [collectF, hstep]
          try simp only []
          have hterm : ∀ c ∈ b0 :: w0, c = 10 ∨ c = 13 := by
            intro c hc
            have hx := scanIdx_none_all hscan c hc
            by_cases h10 : c = 10
            · exact Or.inl h10
            · by_cases h13 : c = 13
              · exact Or.inr h13
              · simp [h10, h13] at hx
          have habs : absFasta .start s = absFasta .start (fillF r).rest := by
            rw [← hqflat0]
            exact absFasta_start_skip _ _ hterm
          rw [habs]
          exact ih ⟨(fillF r).cap, [], (fillF r).rest, .start⟩ (fillF r).rest rfl hcap2 hmemr
            (by first
              | omega
              | (simp only [List.length_append, List.length_drop, List.length_cons, List.length_nil] at hlens ⊢; omega))
        · -- first byte is not a terminator
          have hb0 := scanIdx_cons_zero hscan
          have hb0' : b0 ≠ 10 ∧ b0 ≠ 13 := by
            by_cases h10 : b0 = 10
            · simp [h10] at hb0
            · by_cases h13 : b0 = 13
              · simp [h13] at hb0
              · exact ⟨h10, h13⟩
          by_cases hb62 : b0 = 62
          · subst hb62
            have hstep : fastaStep r = .yield (.event .startRecord)
                ⟨(fillF r).cap, w0, (fillF r).rest, .id⟩ := by
              unfold fastaStep fastaScan
              rw [hw, hqst]
              simp only [hscan]
              simp
            have hrec := ih ⟨(fillF r).cap, w0, (fillF r).rest, .id⟩
              (w0 ++ (fillF r).rest) rfl hcap2
              (fun b hb => hcr b (by rw [hsc]; exact List.mem_cons_of_mem _ hb))
              (by first
              | omega
              | (simp only [List.length_append, List.length_drop, List.length_cons, List.length_nil] at hlens ⊢; omega))
            have hcons := collectF_cons_step hstep hrec
            rw [hcons, hsc, absFasta_start_marker]
          · have hstep : fastaStep r = .yield (.error (.invalidFormat b0 62)) (fillF r) := by
              unfold fastaStep fastaScan
              rw [hw, hqst]
              simp only [hscan]
              rw [if_neg hb62]
            rw [collectF, hstep]
            try simp only []
            rw [hsc, absFasta_start_err _ hb0'.1 hb0'.2 hb62]
            rfl
        · -- a leading run of terminators of length pos+1
          have hlt : pos + 1 < (b0 :: w0).length := scanIdx_lt_length hscan
          have hstep : fastaStep r =
              .cont ⟨(fillF r).cap, (b0 :: w0).drop (pos + 1), (fillF r).rest, .start⟩ := by
            unfold fastaStep fastaScan
            rw [hw, hqst]
            simp only [hscan]
          rw [collectF, hstep]
          try simp only []
          have hterm : ∀ c ∈ (b0 :: w0).take (pos + 1), c = 10 ∨ c = 13 := by
            intro c hc
            have hx := scanIdx_take_all hscan c hc
            by_cases h10 : c = 10
            · exact Or.inl h10
            · by_cases h13 : c = 13
              · exact Or.inr h13
              · simp [h10, h13] at hx
          have habs : absFasta .start s =
              absFasta .start ((b0 :: w0).drop (pos + 1) ++ (fillF r).rest) := by
            rw [← hqflat0]
            conv_lhs => rw [← List.take_append_drop (pos + 1) (b0 :: w0)]
            rw [List.append_assoc]
            exact absFasta_start_skip _ _ hterm
          rw [habs]
          exact ih ⟨(fillF r).cap, (b0 :: w0).drop (pos + 1), (fillF r).rest, .start⟩
            ((b0 :: w0).drop (pos + 1) ++ (fillF r).rest) rfl hcap2
            (fun b hb => by
              rcases List.mem_append.mp hb with h | h
              · exact hmemw b (List.drop_subset _ _ h)
              · exact hmemr b h)
            (by first
              | omega
              | (simp only [List.length_append, List.length_drop, List.length_cons, List.length_nil] at hlens ⊢; omega))
      | id =>
        have hqst : (fillF r).state = .id := by rw [fillF_state, hst]
        rcases hscan : scanIdx (fun c => c == 10) (b0 :: w0) with _ | nl
        · -- no newline in the window: the whole window is an id chunk
          have hstep : fastaStep r = .yield (.event (.idChunk (b0 :: w0)))
              ⟨(fillF r).cap, [], (fillF r).rest, .id⟩ := by
            unfold fastaStep fastaScan
            rw [hw, hqst]
            simp only [hscan]
          have hrec := ih ⟨(fillF r).cap, [], (fillF r).rest, .id⟩ (fillF r).rest rfl hcap2
            hmemr (by first
              | omega
              | (simp only [List.length_append, List.length_drop, List.length_cons, List.length_nil] at hlens ⊢; omega))
          have hcons := collectF_cons_step hstep hrec
          rw [hcons, ← hqflat0]
          exact congrArg some (obs_id_split (b0 :: w0) (fillF r).rest (by simp) hscan
            (by rw [hqflat0]; exact hcr))
        · have hnlt := scanIdx_lt_length hscan
          have hgd : ¬(0 < nl ∧ (b0 :: w0).getD (nl - 1) 0 = 13) := by
            rintro ⟨hpos, hx⟩
            exact hmemw _ (getD_mem _ _ (by omega)) hx
          have hscanS : scanIdx (fun c => c == 10) (b0 :: (w0 ++ (fillF r).rest)) = some nl :=
            scanIdx_append_some (w := b0 :: w0) _ hscan
          have hgdS : ¬(0 < nl ∧ (b0 :: (w0 ++ (fillF r).rest)).getD (nl - 1) 0 = 13) := by
            rintro ⟨hpos, hx⟩
            refine hcr _ ?_ hx
            rw [hsc]
            exact getD_mem _ _ (by simp; simp at hnlt; omega)
          by_cases hnl0 : 0 < nl
          · have hstep : fastaStep r = .yield (.event (.idChunk ((b0 :: w0).take nl)))
                ⟨(fillF r).cap, (b0 :: w0).drop (nl + 1), (fillF r).rest, .sequence⟩ := by
              unfold fastaStep fastaScan
              rw [hw, hqst]
              simp only [hscan]
              rw [if_neg hgd, if_pos hnl0]
            have hflat2 : (b0 :: w0).drop (nl + 1) ++ (fillF r).rest =
                (b0 :: (w0 ++ (fillF r).rest)).drop (nl + 1) :=
              (drop_append_le (w := b0 :: w0) (by omega)).symm
            have hrec := ih ⟨(fillF r).cap, (b0 :: w0).drop (nl + 1), (fillF r).rest, .sequence⟩
              ((b0 :: (w0 ++ (fillF r).rest)).drop (nl + 1)) hflat2 hcap2
              (fun b hb => by
                refine hcr b ?_
                rw [hsc]
                exact List.drop_subset _ _ hb)
              (by first
              | omega
              | (simp only [List.length_append, List.length_drop, List.length_cons, List.length_nil] at hlens ⊢; omega))
            have hcons := collectF_cons_step hstep hrec
            rw [hcons, hsc, absFasta_id_some_clean hscanS hgdS hnl0]
            have htake : (b0 :: (w0 ++ (fillF r).rest)).take nl = (b0 :: w0).take nl :=
              take_append_le (w := b0 :: w0) (by omega)
            rw [htake]
          · have hnl0' : nl = 0 := by omega
            subst hnl0'
            have hstep : fastaStep r =
                .cont ⟨(fillF r).cap, (b0 :: w0).drop 1, (fillF r).rest, .sequence⟩ := by
              unfold fastaStep fastaScan
              rw [hw, hqst]
              simp only [hscan]
              rw [if_neg hgd]
              simp
            rw [collectF, hstep]
            try simp only []
            rw [hsc, absFasta_id_some_zero hscanS]
            exact ih ⟨(fillF r).cap, (b0 :: w0).drop 1, (fillF r).rest, .sequence⟩
              (w0 ++ (fillF r).rest) rfl hcap2
              (fun b hb => hcr b (by rw [hsc]; exact List.mem_cons_of_mem _ hb))
              (by first
              | omega
              | (simp only [List.length_append, List.length_drop, List.length_cons, List.length_nil] at hlens ⊢; omega))
      | sequence =>
        have hqst : (fillF r).state = .sequence := by rw [fillF_state, hst]
        have hb13 : b0 ≠ 13 := hmemw b0 (by simp)
        by_cases hb10 : b0 = 10
        · subst hb10
          have hstep : fastaStep r =
              .cont ⟨(fillF r).cap, w0, (fillF r).rest, .sequence⟩ := by
            unfold fastaStep fastaScan
            rw [hw, hqst]
            try simp only []
            simp
          rw [collectF, hstep]
          try simp only []
          rw [hsc, absFasta_seq_nl]
          exact ih ⟨(fillF r).cap, w0, (fillF r).rest, .sequence⟩ (w0 ++ (fillF r).rest) rfl
            hcap2 (fun b hb => hcr b (by rw [hsc]; exact List.mem_cons_of_mem _ hb))
            (by first
              | omega
              | (simp only [List.length_append, List.length_drop, List.length_cons, List.length_nil] at hlens ⊢; omega))
        · by_cases hb62 : b0 = 62
          · subst hb62
            have hstep : fastaStep r = .yield (.event .startRecord)
                ⟨(fillF r).cap, w0, (fillF r).rest, .id⟩ := by
              unfold fastaStep fastaScan
              rw [hw, hqst]
              try simp only []
              rw [if_neg (by decide), if_neg (by decide)]
              simp
            have hrec := ih ⟨(fillF r).cap, w0, (fillF r).rest, .id⟩
              (w0 ++ (fillF r).rest) rfl hcap2
              (fun b hb => hcr b (by rw [hsc]; exact List.mem_cons_of_mem _ hb))
              (by first
              | omega
              | (simp only [List.length_append, List.length_drop, List.length_cons, List.length_nil] at hlens ⊢; omega))
            have hcons := collectF_cons_step hstep hrec
            rw [hcons, hsc, absFasta_seq_marker]
          · have hp3 : (fun c => c == 10 || c == 13 || c == 62) b0 = false := by
              simp [hb10, hb13, hb62]
            rcases hswin : scanIdx (fun c => c == 10 || c == 13 || c == 62) (b0 :: w0)
              with _ | ⟨_ | j⟩
            · -- no stop byte in the window
              have hce : scanIdxD (fun c => c == 10 || c == 13 || c == 62) (b0 :: w0) =
                  w0.length + 1 := by
                unfold scanIdxD
                rw [hswin]
                simp
              have hstep : fastaStep r = .yield (.event (.seqChunk (b0 :: w0)))
                  ⟨(fillF r).cap, [], (fillF r).rest, .sequence⟩ := by
                unfold fastaStep fastaScan
                rw [hw, hqst]
                try simp only []
                rw [if_neg hb10, if_neg hb13, if_neg hb62, hce]
                rw [if_neg (by omega)]
                have h1 : (b0 :: w0).take (w0.length + 1) = b0 :: w0 := by
                  rw [show w0.length + 1 = (b0 :: w0).length from by simp]
                  exact List.take_length _
                have h2 : (b0 :: w0).drop (w0.length + 1) = [] := by
                  rw [show w0.length + 1 = (b0 :: w0).length from by simp]
                  exact List.drop_length _
                rw [h1, h2]
              have hrec := ih ⟨(fillF r).cap, [], (fillF r).rest, .sequence⟩ (fillF r).rest rfl
                hcap2 hmemr (by first
              | omega
              | (simp only [List.length_append, List.length_drop, List.length_cons, List.length_nil] at hlens ⊢; omega))
              have hcons := collectF_cons_step hstep hrec
              rw [hcons, ← hqflat0]
              exact congrArg some (obs_seq_split (b0 :: w0) (fillF r).rest (by simp) hswin
                (by rw [hqflat0]; exact hcr))
            · -- a stop byte at index 0 is impossible here
              exfalso
              have := scanIdx_cons_zero hswin
              simp [hb10, hb13, hb62] at this
            · -- a stop byte at index j+1
              obtain ⟨-, hsw0⟩ := scanIdx_cons_succ hswin
              have hjlt := scanIdx_lt_length hsw0
              have hce : scanIdxD (fun c => c == 10 || c == 13 || c == 62) (b0 :: w0) =
                  j + 1 := by
                unfold scanIdxD
                rw [hswin]
                rfl
              have hstep : fastaStep r = .yield (.event (.seqChunk ((b0 :: w0).take (j + 1))))
                  ⟨(fillF r).cap, (b0 :: w0).drop (j + 1), (fillF r).rest, .sequence⟩ := by
                unfold fastaStep fastaScan
                rw [hw, hqst]
                try simp only []
                rw [if_neg hb10, if_neg hb13, if_neg hb62, hce]
                rw [if_neg (by omega)]
              have hsw0rest : scanIdx (fun c => c == 10 || c == 13 || c == 62)
                  (w0 ++ (fillF r).rest) = some j := scanIdx_append_some _ hsw0
              have hceS : scanIdxD (fun c => c == 10 || c == 13 || c == 62)
                  (w0 ++ (fillF r).rest) = j := by
                unfold scanIdxD
                rw [hsw0rest]
                rfl
              have hflat2 : (b0 :: w0).drop (j + 1) ++ (fillF r).rest =
                  (w0 ++ (fillF r).rest).drop j := by
                rw [List.drop_succ_cons]
                exact (drop_append_le (w := w0) (by omega)).symm
              have hrec := ih ⟨(fillF r).cap, (b0 :: w0).drop (j + 1), (fillF r).rest, .sequence⟩
                ((w0 ++ (fillF r).rest).drop j) hflat2 hcap2
                (fun b hb => by
                  refine hcr b ?_
                  rw [hsc]
                  exact List.mem_cons_of_mem _ (List.drop_subset _ _ hb))
                (by first
              | omega
              | (simp only [List.length_append, List.length_drop, List.length_cons, List.length_nil] at hlens ⊢; omega))
              have hcons := collectF_cons_step hstep hrec
              rw [hcons, hsc, absFasta_seq_chunk _ hb10 hb13 hb62, hceS]
              have htake : (b0 :: (w0 ++ (fillF r).rest)).take (j + 1) =
                  (b0 :: w0).take (j + 1) :=
                take_append_le (w := b0 :: w0) (by first
              | omega
              | (simp only [List.length_append, List.length_drop, List.length_cons, List.length_nil] at hlens ⊢; omega))
              rw [htake]

/-! ## Equation lemmas for the canonical FASTQ parser -/

theorem absFastq_nil (st : QState) (a b : Nat) (fr : Bool) :
    absFastq st a b fr [] = ([], none) := by
  rw [absFastq.eq_def]

theorem absFastq_start_term {b0 : Nat} (s0 : List Nat) (a b : Nat) (fr : Bool)
    (h : b0 = 10 ∨ b0 = 13) :
    absFastq .start a b fr (b0 :: s0) = absFastq .start a b fr s0 := by
  conv_lhs => rw [absFastq.eq_def]
  simp [h]

theorem absFastq_start_marker_first (s0 : List Nat) (a b : Nat) :
    absFastq .start a b true (64 :: s0) = absFastq .id 0 0 false s0 := by
  conv_lhs => rw [absFastq.eq_def]
  simp

theorem absFastq_start_marker_next (s0 : List Nat) (a b : Nat) :
    absFastq .start a b false (64 :: s0) =
      (.nextRecord :: (absFastq .id 0 0 false s0).1, (absFastq .id 0 0 false s0).2) := by
  conv_lhs => rw [absFastq.eq_def]
  simp

theorem absFastq_start_err {b0 : Nat} (s0 : List Nat) (a b : Nat) (fr : Bool)
    (h1 : b0 ≠ 10) (h2 : b0 ≠ 13) (h3 : b0 ≠ 64) :
    absFastq .start a b fr (b0 :: s0) = ([], some (.invalidFormat b0 64)) := by
  conv_lhs => rw [absFastq.eq_def]
  simp [h1, h2, h3]

theorem absFastq_id {b0 : Nat} (s0 : List Nat) (a b : Nat) (fr : Bool) :
    absFastq .id a b fr (b0 :: s0) =
      (match scanIdx (fun c => c == 10) (b0 :: s0) with
       | some nl =>
         let e := if 0 < nl ∧ (b0 :: s0).getD (nl - 1) 0 = 13 then nl - 1 else nl
         let p := absFastq .sequence a b fr ((b0 :: s0).drop (nl + 1))
         if 0 < e then (.idChunk ((b0 :: s0).take e) :: p.1, p.2) else p
       | none => ([.idChunk (b0 :: s0)], none)) := by
  conv_lhs => rw [absFastq.eq_def]

theorem absFastq_id_some_clean {b0 : Nat} {s0 : List Nat} {nl : Nat} (a b : Nat) (fr : Bool)
    (h : scanIdx (fun c => c == 10) (b0 :: s0) = some nl)
    (hgd : ¬(0 < nl ∧ (b0 :: s0).getD (nl - 1) 0 = 13)) (hnl : 0 < nl) :
    absFastq .id a b fr (b0 :: s0) =
      (.idChunk ((b0 :: s0).take nl) ::
         (absFastq .sequence a b fr ((b0 :: s0).drop (nl + 1))).1,
       (absFastq .sequence a b fr ((b0 :: s0).drop (nl + 1))).2) := by
  rw [absFastq_id, h]
  simp only [if_neg hgd, if_pos hnl]

theorem absFastq_id_some_zero {b0 : Nat} {s0 : List Nat} (a b : Nat) (fr : Bool)
    (h : scanIdx (fun c => c == 10) (b0 :: s0) = some 0) :
    absFastq .id a b fr (b0 :: s0) = absFastq .sequence a b fr ((b0 :: s0).drop 1) := by
  rw [absFastq_id, h]
  simp

theorem absFastq_id_none {b0 : Nat} {s0 : List Nat} (a b : Nat) (fr : Bool)
    (h : scanIdx (fun c => c == 10) (b0 :: s0) = none) :
    absFastq .id a b fr (b0 :: s0) = ([.idChunk (b0 :: s0)], none) := by
  rw [absFastq_id, h]

theorem absFastq_seq_plus {s0 : List Nat} (a b : Nat) (fr : Bool) :
    absFastq .sequence a b fr (43 :: s0) =
      (match scanIdx (fun c => c == 10) (43 :: s0) with
       | some nl => absFastq .plus a b fr ((43 :: s0).drop (nl + 1))
       | none => absFastq .plus a b fr []) := by
  conv_lhs => rw [absFastq.eq_def]
  simp

theorem absFastq_seq_nl (s0 : List Nat) (a b : Nat) (fr : Bool) :
    absFastq .sequence a b fr (10 :: s0) = absFastq .sequence a b fr s0 := by
  conv_lhs => rw [absFastq.eq_def]
  simp

theorem absFastq_seq_chunk {b0 : Nat} (s0 : List Nat) (a b : Nat) (fr : Bool)
    (h0 : b0 ≠ 43) (h1 : b0 ≠ 10) (h2 : b0 ≠ 13) :
    absFastq .sequence a b fr (b0 :: s0) =
      (.seqChunk ((b0 :: s0).take (scanIdxD (fun c => c == 10 || c == 13 || c == 43) s0 + 1)) ::
         (absFastq .sequence (a + (scanIdxD (fun c => c == 10 || c == 13 || c == 43) s0 + 1)) b fr
            (s0.drop (scanIdxD (fun c => c == 10 || c == 13 || c == 43) s0))).1,
       (absFastq .sequence (a + (scanIdxD (fun c => c == 10 || c == 13 || c == 43) s0 + 1)) b fr
          (s0.drop (scanIdxD (fun c => c == 10 || c == 13 || c == 43) s0))).2) := by
  conv_lhs => rw [absFastq.eq_def]
  simp [h0, h1, h2]

theorem absFastq_plus_nl (s0 : List Nat) (a b : Nat) (fr : Bool) :
    absFastq .plus a b fr (10 :: s0) = absFastq .quality a b fr s0 := by
  conv_lhs => rw [absFastq.eq_def]
  simp

theorem absFastq_plus_content {b0 : Nat} (s0 : List Nat) (a b : Nat) (fr : Bool)
    (h1 : b0 ≠ 10) (h2 : b0 ≠ 13) :
    absFastq .plus a b fr (b0 :: s0) = absFastq .quality a b fr (b0 :: s0) := by
  conv_lhs => rw [absFastq.eq_def]
  simp [h1, h2]

theorem absFastq_quality_nl (s0 : List Nat) (a b : Nat) (fr : Bool) :
    absFastq .quality a b fr (10 :: s0) = absFastq .quality a b fr s0 := by
  conv_lhs => rw [absFastq.eq_def]
  simp

theorem absFastq_quality_done {b0 : Nat} (s0 : List Nat) (a b : Nat) (fr : Bool)
    (h1 : b0 ≠ 10) (h2 : b0 ≠ 13) (h0 : a - b = 0) :
    absFastq .quality a b fr (b0 :: s0) = absFastq .start a b fr (b0 :: s0) := by
  conv_lhs => rw [absFastq.eq_def]
  simp [h1, h2, h0]

theorem absFastq_quality_chunk {b0 : Nat} (s0 : List Nat) (a b : Nat) (fr : Bool)
    (h1 : b0 ≠ 10) (h2 : b0 ≠ 13) (h0 : a - b ≠ 0) :
    absFastq .quality a b fr (b0 :: s0) =
      (.qualChunk ((b0 :: s0).take
          (min (scanIdxD (fun c => c == 10 || c == 13) s0 + 1) (a - b))) ::
         (absFastq (if a ≤ b + min (scanIdxD (fun c => c == 10 || c == 13) s0 + 1) (a - b)
              then QState.start else QState.quality) a
            (b + min (scanIdxD (fun c => c == 10 || c == 13) s0 + 1) (a - b)) fr
            ((b0 :: s0).drop (min (scanIdxD (fun c => c == 10 || c == 13) s0 + 1) (a - b)))).1,
       (absFastq (if a ≤ b + min (scanIdxD (fun c => c == 10 || c == 13) s0 + 1) (a - b)
            then QState.start else QState.quality) a
          (b + min (scanIdxD (fun c => c == 10 || c == 13) s0 + 1) (a - b)) fr
          ((b0 :: s0).drop (min (scanIdxD (fun c => c == 10 || c == 13) s0 + 1) (a - b)))).2) := by
  conv_lhs => rw [absFastq.eq_def]
  simp only [h1, h2, h0, if_neg, dif_neg]
  simp [h1, h2]

/-! ## Plus/Quality agreement and other FASTQ helpers -/

theorem absFastq_plus_eq_quality (s : List Nat) (a b : Nat) (fr : Bool)
    (hcr : ∀ c ∈ s, c ≠ 13) :
    absFastq .plus a b fr s = absFastq .quality a b fr s := by
  rcases s with _ | ⟨b0, s0⟩
  · rw [absFastq_nil, absFastq_nil]
  · have h13 : b0 ≠ 13 := hcr b0 (by simp)
    by_cases h10 : b0 = 10
    · subst h10
      rw [absFastq_plus_nl, absFastq_quality_nl]
    · rw [absFastq_plus_content _ _ _ _ h10 h13]

theorem absFastq_start_skip : ∀ (w t : List Nat) (a b : Nat) (fr : Bool),
    (∀ c ∈ w, c = 10 ∨ c = 13) →
    absFastq .start a b fr (w ++ t) = absFastq .start a b fr t := by
  intro w
  induction w with
  | nil => intro t a b fr _; rfl
  | cons c cs ih =>
    intro t a b fr hall
    rw [List.cons_append, absFastq_start_term _ _ _ _ (hall c (by simp))]
    exact ih t a b fr (fun c' hc' => hall c' (by simp [hc']))

theorem plusOk_tail : ∀ {b : Nat} {t : List Nat}, plusOk (b :: t) = true → plusOk t = true := by
  intro b t h
  rcases t with _ | ⟨c, t'⟩
  · rfl
  · unfold plusOk at h
    exact (Bool.and_eq_true_iff.mp h).2

theorem plusOk_head {c : Nat} {t : List Nat} (h : plusOk (43 :: c :: t) = true) : c = 10 := by
  unfold plusOk at h
  have h1 := (Bool.and_eq_true_iff.mp h).1
  simp at h1
  exact h1

theorem plusOk_drop {s : List Nat} (h : plusOk s = true) :
    ∀ n, plusOk (s.drop n) = true := by
  induction s with
  | nil => intro n; simp [plusOk]
  | cons b t ih =>
    intro n
    cases n with
    | zero => exact h
    | succ m => exact ih (plusOk_tail h) m

theorem plusOk_suffix {w t : List Nat} (h : plusOk (w ++ t) = true) : plusOk t = true := by
  have h2 := plusOk_drop h w.length
  have h3 : (w ++ t).drop w.length = t := by
    have := drop_append_len w t 0
    simpa using this
  rwa [h3] at h2

theorem collectQ_cons_step {fuel : Nat} {r r2 : FastqReader} {ev : Ev}
    {A : List Ev × Option Err}
    (hstep : fastqStep r = .yield (.event ev) r2)
    (hrec : (collectQ fuel r2).map obs = some (obs A)) :
    (collectQ (fuel + 1) r).map obs = some (obs (ev :: A.1, A.2)) := by
  rw [collectQ, hstep]
  simp only []
  obtain ⟨p, hp, hobs⟩ := Option.map_eq_some'.mp hrec
  obtain ⟨evs, er⟩ := p
  rw [hp]
  simp only [Option.map_some']
  exact congrArg some (obs_cons_cong hobs)

theorem obs_id_splitQ (w t : List Nat) (a b : Nat) (fr : Bool) (hw : w ≠ [])
    (hscan : scanIdx (fun c => c == 10) w = none)
    (hcr : ∀ c ∈ w ++ t, c ≠ 13) :
    obs (.idChunk w :: (absFastq .id a b fr t).1, (absFastq .id a b fr t).2) =
      obs (absFastq .id a b fr (w ++ t)) := by
  rcases hwc : w with _ | ⟨b0, w0⟩
  · exact absurd hwc hw
  rw [← hwc]
  have hws : scanIdx (fun c => c == 10) (w ++ t) =
      (scanIdx (fun c => c == 10) t).map (· + w.length) := scanIdx_append_none t hscan
  have hwt : w ++ t = b0 :: (w0 ++ t) := by rw [hwc]; rfl
  cases hst : scanIdx (fun c => c == 10) t with
  | none =>
    rw [hst] at hws
    simp only [Option.map_none'] at hws
    have hrhs : absFastq .id a b fr (w ++ t) = ([.idChunk (w ++ t)], none) := by
      rw [hwt]
      exact absFastq_id_none a b fr (by rw [← hwt, hws])
    rw [hrhs]
    rcases t with _ | ⟨c, t'⟩
    · rw [absFastq_nil]
      simp only [obs, Prod.mk.injEq]
      refine ⟨?_, trivial⟩
      rw [goEv_cons, goEv_cons]
      simp [goEv, pushEv]
    · have hlhs : absFastq .id a b fr (c :: t') = ([.idChunk (c :: t')], none) :=
        absFastq_id_none a b fr hst
      rw [hlhs]
      simp only [obs, Prod.mk.injEq]
      refine ⟨?_, trivial⟩
      rw [goEv_cons, goEv_cons, goEv_cons, pushEv_id_id]
  | some k =>
    rw [hst] at hws
    simp only [Option.map_some'] at hws
    have hkt : k < t.length := scanIdx_lt_length hst
    have htne : t ≠ [] := by rintro rfl; simp [scanIdx] at hst
    have hlen : k + w.length < (w ++ t).length := by simp; omega
    have hwpos : 0 < w.length := by rw [hwc]; simp
    have hgd : ¬(0 < k + w.length ∧ (w ++ t).getD (k + w.length - 1) 0 = 13) := by
      rintro ⟨-, hx⟩
      exact hcr _ (getD_mem _ _ (by omega)) hx
    have hrhs : absFastq .id a b fr (w ++ t) =
        (.idChunk ((w ++ t).take (k + w.length)) ::
           (absFastq .sequence a b fr ((w ++ t).drop (k + w.length + 1))).1,
         (absFastq .sequence a b fr ((w ++ t).drop (k + w.length + 1))).2) := by
      rw [hwt]
      exact absFastq_id_some_clean a b fr (by rw [← hwt, hws]) (by rw [← hwt]; exact hgd)
        (by omega)
    rw [hrhs]
    have htake : (w ++ t).take (k + w.length) = w ++ t.take k := by
      rw [show k + w.length = w.length + k from by omega]
      exact take_append_len w t k
    have hdrop : (w ++ t).drop (k + w.length + 1) = t.drop (k + 1) := by
      rw [show k + w.length + 1 = w.length + (k + 1) from by omega]
      exact drop_append_len w t (k + 1)
    rw [htake, hdrop]
    rcases htc : t with _ | ⟨c, t'⟩
    · exact absurd htc htne
    rw [← htc]
    have hgdt : ¬(0 < k ∧ t.getD (k - 1) 0 = 13) := by
      rintro ⟨hk, hx⟩
      refine hcr _ ?_ hx
      rw [List.mem_append]
      right
      exact getD_mem _ _ (by omega)
    by_cases hk : 0 < k
    · have hlhs : absFastq .id a b fr t =
          (.idChunk (t.take k) :: (absFastq .sequence a b fr (t.drop (k + 1))).1,
           (absFastq .sequence a b fr (t.drop (k + 1))).2) := by
        rw [htc]
        exact absFastq_id_some_clean a b fr (by rw [← htc, hst]) (by rw [← htc]; exact hgdt) hk
      rw [hlhs]
      simp only [obs, Prod.mk.injEq]
      refine ⟨?_, trivial⟩
      rw [goEv_cons, goEv_cons, goEv_cons, pushEv_id_id]
    · have hk0 : k = 0 := by omega
      subst hk0
      have hlhs : absFastq .id a b fr t = absFastq .sequence a b fr (t.drop 1) := by
        rw [htc]
        exact absFastq_id_some_zero a b fr (by rw [← htc, hst])
      rw [hlhs]
      simp only [obs, Prod.mk.injEq, List.take_zero, List.append_nil]

theorem obs_seq_splitQ (w t : List Nat) (a b : Nat) (fr : Bool) (hw : w ≠ [])
    (hscan : scanIdx (fun c => c == 10 || c == 13 || c == 43) w = none)
    (hcr : ∀ c ∈ w ++ t, c ≠ 13) :
    obs (.seqChunk w :: (absFastq .sequence (a + w.length) b fr t).1,
         (absFastq .sequence (a + w.length) b fr t).2) =
      obs (absFastq .sequence a b fr (w ++ t)) := by
  rcases hwc : w with _ | ⟨b0, w0⟩
  · exact absurd hwc hw
  rw [← hwc]
  have h0 := scanIdx_cons_none (p := fun c => c == 10 || c == 13 || c == 43) (hwc ▸ hscan)
  have hb0 : b0 ≠ 10 ∧ b0 ≠ 13 ∧ b0 ≠ 43 := by
    have := h0.1
    simp at this
    exact ⟨this.1.1, this.1.2, this.2⟩
  have hwt : w ++ t = b0 :: (w0 ++ t) := by rw [hwc]; rfl
  have hsD : scanIdxD (fun c => c == 10 || c == 13 || c == 43) (w0 ++ t) =
      w0.length + scanIdxD (fun c => c == 10 || c == 13 || c == 43) t :=
    scanIdxD_append_none t h0.2
  have hwlen : w.length = w0.length + 1 := by rw [hwc]; rfl
  have hrhs : absFastq .sequence a b fr (w ++ t) =
      (.seqChunk (w ++ t.take (scanIdxD (fun c => c == 10 || c == 13 || c == 43) t)) ::
         (absFastq .sequence
            (a + (w.length + scanIdxD (fun c => c == 10 || c == 13 || c == 43) t)) b fr
            (t.drop (scanIdxD (fun c => c == 10 || c == 13 || c == 43) t))).1,
       (absFastq .sequence
          (a + (w.length + scanIdxD (fun c => c == 10 || c == 13 || c == 43) t)) b fr
          (t.drop (scanIdxD (fun c => c == 10 || c == 13 || c == 43) t))).2) := by
    rw [hwt, absFastq_seq_chunk (w0 ++ t) a b fr hb0.2.2 hb0.1 hb0.2.1, ← hwt, hsD]
    have ht1 : (w ++ t).take (w0.length +
        scanIdxD (fun c => c == 10 || c == 13 || c == 43) t + 1) =
        w ++ t.take (scanIdxD (fun c => c == 10 || c == 13 || c == 43) t) := by
      rw [show w0.length + scanIdxD (fun c => c == 10 || c == 13 || c == 43) t + 1 =
          w.length + scanIdxD (fun c => c == 10 || c == 13 || c == 43) t from by omega]
      exact take_append_len w t _
    have ht2 : (w0 ++ t).drop (w0.length +
        scanIdxD (fun c => c == 10 || c == 13 || c == 43) t) =
        t.drop (scanIdxD (fun c => c == 10 || c == 13 || c == 43) t) :=
      drop_append_len w0 t _
    rw [ht1, ht2]
    rw [show w0.length + scanIdxD (fun c => c == 10 || c == 13 || c == 43) t + 1 =
        w.length + scanIdxD (fun c => c == 10 || c == 13 || c == 43) t from by omega]
  rw [hrhs]
  rcases htc : t with _ | ⟨c, t'⟩
  · simp only [absFastq_nil, scanIdxD, scanIdx, Option.getD_none, List.length_nil,
      List.take_zero, List.append_nil, List.drop_zero, Nat.add_zero]
  rw [← htc]
  by_cases hp3c : (fun c => c == 10 || c == 13 || c == 43) c = true
  · have hscD : scanIdxD (fun c => c == 10 || c == 13 || c == 43) t = 0 := by
      unfold scanIdxD
      rw [htc]
      simp only [scanIdx, hp3c, if_true]
      rfl
    rw [hscD]
    simp only [List.take_zero, List.append_nil, List.drop_zero, Nat.add_zero]
  · have hc : c ≠ 10 ∧ c ≠ 13 ∧ c ≠ 43 := by
      simp at hp3c
      exact ⟨hp3c.1.1, hp3c.1.2, hp3c.2⟩
    have hscD : scanIdxD (fun c => c == 10 || c == 13 || c == 43) t =
        scanIdxD (fun c => c == 10 || c == 13 || c == 43) t' + 1 := by
      rw [htc]
      exact scanIdxD_cons_false t' (Bool.eq_false_iff.mpr hp3c)
    have hlhs : absFastq .sequence (a + w.length) b fr t =
        (.seqChunk (t.take (scanIdxD (fun c => c == 10 || c == 13 || c == 43) t' + 1)) ::
           (absFastq .sequence
              (a + w.length + (scanIdxD (fun c => c == 10 || c == 13 || c == 43) t' + 1)) b fr
              (t'.drop (scanIdxD (fun c => c == 10 || c == 13 || c == 43) t'))).1,
         (absFastq .sequence
            (a + w.length + (scanIdxD (fun c => c == 10 || c == 13 || c == 43) t' + 1)) b fr
            (t'.drop (scanIdxD (fun c => c == 10 || c == 13 || c == 43) t'))).2) := by
      rw [htc]
      exact absFastq_seq_chunk t' (a + w.length) b fr hc.2.2 hc.1 hc.2.1
    have hdropt : t.drop (scanIdxD (fun c => c == 10 || c == 13 || c == 43) t' + 1) =
        t'.drop (scanIdxD (fun c => c == 10 || c == 13 || c == 43) t') := by
      rw [htc]
      rfl
    rw [hlhs, hscD, hdropt]
    rw [show a + (w.length + (scanIdxD (fun c => c == 10 || c == 13 || c == 43) t' + 1)) =
        a + w.length + (scanIdxD (fun c => c == 10 || c == 13 || c == 43) t' + 1) from by omega]
    simp only [obs, Prod.mk.injEq]
    refine ⟨?_, trivial⟩
    rw [goEv_cons, goEv_cons, goEv_cons, pushEv_seq_seq]

theorem obs_qual_splitQ (w t : List Nat) (a b : Nat) (fr : Bool) (hw : w ≠ [])
    (hscan : scanIdx (fun c => c == 10 || c == 13) w = none)
    (hrem : w.length < a - b) :
    obs (.qualChunk w :: (absFastq .quality a (b + w.length) fr t).1,
         (absFastq .quality a (b + w.length) fr t).2) =
      obs (absFastq .quality a b fr (w ++ t)) := by
  rcases hwc : w with _ | ⟨b0, w0⟩
  · exact absurd hwc hw
  rw [← hwc]
  have h0 := scanIdx_cons_none (p := fun c => c == 10 || c == 13) (hwc ▸ hscan)
  have hb0 : b0 ≠ 10 ∧ b0 ≠ 13 := by
    have := h0.1
    simp at this
    exact this
  have hwt : w ++ t = b0 :: (w0 ++ t) := by rw [hwc]; rfl
  have hwlen : w.length = w0.length + 1 := by rw [hwc]; rfl
  have hsD : scanIdxD (fun c => c == 10 || c == 13) (w0 ++ t) =
      w0.length + scanIdxD (fun c => c == 10 || c == 13) t :=
    scanIdxD_append_none t h0.2
  have hab : a - b ≠ 0 := by omega
  have hrhs0 : absFastq .quality a b fr (w ++ t) =
      (.qualChunk ((w ++ t).take
          (min (w.length + scanIdxD (fun c => c == 10 || c == 13) t) (a - b))) ::
         (absFastq (if a ≤ b + min (w.length + scanIdxD (fun c => c == 10 || c == 13) t) (a - b)
              then QState.start else QState.quality) a
            (b + min (w.length + scanIdxD (fun c => c == 10 || c == 13) t) (a - b)) fr
            ((w ++ t).drop
              (min (w.length + scanIdxD (fun c => c == 10 || c == 13) t) (a - b)))).1,
       (absFastq (if a ≤ b + min (w.length + scanIdxD (fun c => c == 10 || c == 13) t) (a - b)
            then QState.start else QState.quality) a
          (b + min (w.length + scanIdxD (fun c => c == 10 || c == 13) t) (a - b)) fr
          ((w ++ t).drop
            (min (w.length + scanIdxD (fun c => c == 10 || c == 13) t) (a - b)))).2) := by
    rw [hwt, absFastq_quality_chunk (w0 ++ t) a b fr hb0.1 hb0.2 hab, ← hwt, hsD]
    rw [show w0.length + scanIdxD (fun c => c == 10 || c == 13) t + 1 =
        w.length + scanIdxD (fun c => c == 10 || c == 13) t from by omega]
  rw [hrhs0]
  rcases htc : t with _ | ⟨c, t'⟩
  · subst htc
    have hk0 : scanIdxD (fun c => c == 10 || c == 13) ([] : List Nat) = 0 := rfl
    rw [hk0]
    have hce : min (w.length + 0) (a - b) = w.length := by omega
    rw [hce]
    have ht1 : (w ++ ([] : List Nat)).take w.length = w := by simp
    have ht2 : (w ++ ([] : List Nat)).drop w.length = [] := by simp
    rw [ht1, ht2]
    have hst : (if a ≤ b + w.length then QState.start else QState.quality) = QState.quality := by
      rw [if_neg (by omega)]
    rw [hst, absFastq_nil]
  subst htc
  by_cases hp2c : (fun c => c == 10 || c == 13) c = true
  · have hscD : scanIdxD (fun c => c == 10 || c == 13) (c :: t') = 0 := by
      unfold scanIdxD
      simp only [scanIdx, hp2c, if_true]
      rfl
    rw [hscD]
    have hce : min (w.length + 0) (a - b) = w.length := by omega
    rw [hce]
    have ht1 : (w ++ c :: t').take w.length = w := by
      have := take_append_len w (c :: t') 0
      simpa using this
    have ht2 : (w ++ c :: t').drop w.length = c :: t' := by
      have := drop_append_len w (c :: t') 0
      simpa using this
    rw [ht1, ht2]
    have hst : (if a ≤ b + w.length then QState.start else QState.quality) = QState.quality := by
      rw [if_neg (by omega)]
    rw [hst]
  · have hc : c ≠ 10 ∧ c ≠ 13 := by
      simp at hp2c
      exact hp2c
    have hab2 : a - (b + w.length) ≠ 0 := by omega
    have hlhs := @absFastq_quality_chunk c t' a (b + w.length) fr hc.1 hc.2 hab2
    rw [hlhs]
    have hscD : scanIdxD (fun c => c == 10 || c == 13) (c :: t') =
        scanIdxD (fun c => c == 10 || c == 13) t' + 1 :=
      scanIdxD_cons_false t' (by simpa using hp2c)
    rw [hscD]
    have hkey : min (w.length + (scanIdxD (fun c => c == 10 || c == 13) t' + 1)) (a - b) =
        w.length + min (scanIdxD (fun c => c == 10 || c == 13) t' + 1) (a - (b + w.length)) := by
      omega
    rw [hkey]
    have ht1 : (w ++ c :: t').take (w.length +
        min (scanIdxD (fun c => c == 10 || c == 13) t' + 1) (a - (b + w.length))) =
        w ++ (c :: t').take
          (min (scanIdxD (fun c => c == 10 || c == 13) t' + 1) (a - (b + w.length))) :=
      take_append_len w (c :: t') _
    have ht2 : (w ++ c :: t').drop (w.length +
        min (scanIdxD (fun c => c == 10 || c == 13) t' + 1) (a - (b + w.length))) =
        (c :: t').drop (min (scanIdxD (fun c => c == 10 || c == 13) t' + 1) (a - (b + w.length))) :=
      drop_append_len w (c :: t') _
    rw [ht1, ht2]
    rw [show b + (w.length +
        min (scanIdxD (fun c => c == 10 || c == 13) t' + 1) (a - (b + w.length))) =
        b + w.length +
        min (scanIdxD (fun c => c == 10 || c == 13) t' + 1) (a - (b + w.length)) from by omega]
    simp only [obs, Prod.mk.injEq]
    refine ⟨?_, trivial⟩
    rw [goEv_cons, goEv_cons, goEv_cons, pushEv_qual_qual]

/-- Capacity-independent simulation for the FASTQ reader: on carriage-return-free
input whose `'+'` bytes all start an empty separator line (`plusOk`), the buffered
reader's run agrees with the canonical window-free state machine `absFastq`. -/
theorem fastqSim : ∀ (fuel : Nat) (r : FastqReader) (s : List Nat),
    r.window ++ r.rest = s → 1 ≤ r.cap → (∀ b ∈ s, b ≠ 13) → plusOk s = true →
    3 * s.length + rankQ r.state + 2 ≤ fuel →
    (collectQ fuel r).map obs =
      some (obs (absFastq r.state r.seqLen r.qualLen r.firstRecord s)) := by
  intro fuel
  induction fuel with
  | zero => intro r s _ _ _ _ hf; omega
  | succ f ih =>
    intro r s hflat hcap hcr hpok hf
    have hqflat0 : (fillQ r).window ++ (fillQ r).rest = s := by
      rw [fillQ_flat]; exact hflat
    have has : (fillQ r).seqLen = r.seqLen := fillQ_seqLen r
    have hbs : (fillQ r).qualLen = r.qualLen := fillQ_qualLen r
    have hfrs : (fillQ r).firstRecord = r.firstRecord := fillQ_firstRecord r
    rw [← has, ← hbs, ← hfrs]
    rcases hw : (fillQ r).window with _ | ⟨b0, w0⟩
    · have hnil : r.window ++ r.rest = [] := fillQ_window_nil hcap hw
      have hs0 : s = [] := by rw [← hflat, hnil]
      have hstep : fastqStep r = .yield .eof (fillQ r) := by
        unfold fastqStep fastqScan
        rw [hw]
      rw [collectQ, hstep]
      try simp only []
      rw [hs0, absFastq_nil]
      rfl
    · rw [hw] at hqflat0
      have hcap2 : 1 ≤ (fillQ r).cap := by rw [fillQ_cap]; exact hcap
      have hlens : w0.length + 1 + (fillQ r).rest.length = s.length := by
        rw [← hqflat0]; simp; omega
      have hmemw : ∀ b ∈ b0 :: w0, b ≠ 13 := by
        intro b hb
        exact hcr b (by rw [← hqflat0]; exact List.mem_append_left _ hb)
      have hmemr : ∀ b ∈ (fillQ r).rest, b ≠ 13 := by
        intro b hb
        exact hcr b (by rw [← hqflat0]; exact List.mem_append_right _ hb)
      have hsc : s = b0 :: (w0 ++ (fillQ r).rest) := by rw [← hqflat0]; rfl
      have hpokc : plusOk (b0 :: (w0 ++ (fillQ r).rest)) = true := by
        rw [← hsc]; exact hpok
      have hpokt : plusOk (w0 ++ (fillQ r).rest) = true := plusOk_tail hpokc
      have hpokr : plusOk (fillQ r).rest = true := plusOk_suffix (w := w0) hpokt
      cases hst : r.state with
      | start =>
        have hqst : (fillQ r).state = .start := by rw [fillQ_state, hst]
        rw [hst] at hf
        rcases hscan : scanIdx (fun c => !(c == 10 || c == 13)) (b0 :: w0) with _ | ⟨_ | pos⟩
        · -- the whole window is line terminators
          have hstep : fastqStep r = .cont ⟨(fillQ r).cap, [], (fillQ r).rest, .start,
              (fillQ r).seqLen, (fillQ r).qualLen, (fillQ r).firstRecord⟩ := by
            unfold fastqStep fastqScan
            rw [hw, hqst]
            simp only [hscan]
          rw [collectQ, hstep]
          try simp only []
          have hterm : ∀ c ∈ b0 :: w0, c = 10 ∨ c = 13 := by
            intro c hc
            have hx := scanIdx_none_all hscan c hc
            by_cases h10 : c = 10
            · exact Or.inl h10
            · by_cases h13 : c = 13
              · exact Or.inr h13
              · simp [h10, h13] at hx
          have habs : absFastq .start (fillQ r).seqLen (fillQ r).qualLen (fillQ r).firstRecord s =
              absFastq .start (fillQ r).seqLen (fillQ r).qualLen (fillQ r).firstRecord
                (fillQ r).rest := by
            rw [← hqflat0]
            exact absFastq_start_skip _ _ _ _ _ hterm
          rw [habs]
          exact ih ⟨(fillQ r).cap, [], (fillQ r).rest, .start,
              (fillQ r).seqLen, (fillQ r).qualLen, (fillQ r).firstRecord⟩
            (fillQ r).rest rfl hcap2 hmemr hpokr
            (by
              try simp only [rankQ] at hf
              try simp only [rankQ]
              try simp only [List.length_append, List.length_drop, List.length_cons,
                List.length_nil] at hlens ⊢
              omega)
        · -- first byte is not a terminator
          have hb0 := scanIdx_cons_zero hscan
          have hb0' : b0 ≠ 10 ∧ b0 ≠ 13 := by
            by_cases h10 : b0 = 10
            · simp [h10] at hb0
            · by_cases h13 : b0 = 13
              · simp [h13] at hb0
              · exact ⟨h10, h13⟩
          by_cases hb64 : b0 = 64
          · subst hb64
            cases hfrc : (fillQ r).firstRecord with
            | true =>
              have hstep : fastqStep r = .cont ⟨(fillQ r).cap, w0, (fillQ r).rest, .id,
                  0, 0, false⟩ := by
                unfold fastqStep fastqScan
                rw [hw, hqst]
                simp only [hscan]
                simp [hfrc]
              rw [collectQ, hstep]
              try simp only []
              rw [hsc, absFastq_start_marker_first]
              exact ih ⟨(fillQ r).cap, w0, (fillQ r).rest, .id, 0, 0, false⟩
                (w0 ++ (fillQ r).rest) rfl hcap2
                (fun b hb => hcr b (by rw [hsc]; exact List.mem_cons_of_mem _ hb))
                hpokt
                (by
                  try simp only [rankQ] at hf
                  try simp only [rankQ]
                  try simp only [List.length_append, List.length_drop, List.length_cons,
                    List.length_nil] at hlens ⊢
                  omega)
            | false =>
              have hstep : fastqStep r = .yield (.event .nextRecord)
                  ⟨(fillQ r).cap, w0, (fillQ r).rest, .id, 0, 0, false⟩ := by
                unfold fastqStep fastqScan
                rw [hw, hqst]
                simp only [hscan]
                simp [hfrc]
              have hrec := ih ⟨(fillQ r).cap, w0, (fillQ r).rest, .id, 0, 0, false⟩
                (w0 ++ (fillQ r).rest) rfl hcap2
                (fun b hb => hcr b (by rw [hsc]; exact List.mem_cons_of_mem _ hb))
                hpokt
                (by
                  try simp only [rankQ] at hf
                  try simp only [rankQ]
                  try simp only [List.length_append, List.length_drop, List.length_cons,
                    List.length_nil] at hlens ⊢
                  omega)
              have hcons := collectQ_cons_step hstep hrec
              rw [hcons, hsc, absFastq_start_marker_next]
          · have hstep : fastqStep r = .yield (.error (.invalidFormat b0 64)) (fillQ r) := by
              unfold fastqStep fastqScan
              rw [hw, hqst]
              simp only [hscan]
              rw [if_neg hb64]
            rw [collectQ, hstep]
            try simp only []
            rw [hsc, absFastq_start_err _ _ _ _ hb0'.1 hb0'.2 hb64]
            rfl
        · -- a leading run of terminators of length pos+1
          have hlt : pos + 1 < (b0 :: w0).length := scanIdx_lt_length hscan
          have hstep : fastqStep r = .cont ⟨(fillQ r).cap, (b0 :: w0).drop (pos + 1),
              (fillQ r).rest, .start,
              (fillQ r).seqLen, (fillQ r).qualLen, (fillQ r).firstRecord⟩ := by
            unfold fastqStep fastqScan
            rw [hw, hqst]
            simp only [hscan]
          rw [collectQ, hstep]
          try simp only []
          have hterm : ∀ c ∈ (b0 :: w0).take (pos + 1), c = 10 ∨ c = 13 := by
            intro c hc
            have hx := scanIdx_take_all hscan c hc
            by_cases h10 : c = 10
            · exact Or.inl h10
            · by_cases h13 : c = 13
              · exact Or.inr h13
              · simp [h10, h13] at hx
          have habs : absFastq .start (fillQ r).seqLen (fillQ r).qualLen (fillQ r).firstRecord s =
              absFastq .start (fillQ r).seqLen (fillQ r).qualLen (fillQ r).firstRecord
                ((b0 :: w0).drop (pos + 1) ++ (fillQ r).rest) := by
            rw [← hqflat0]
            conv_lhs => rw [← List.take_append_drop (pos + 1) (b0 :: w0)]
            rw [List.append_assoc]
            exact absFastq_start_skip _ _ _ _ _ hterm
          rw [habs]
          have hdp : (b0 :: w0).drop (pos + 1) ++ (fillQ r).rest = s.drop (pos + 1) := by
            rw [hsc]
            simp only [List.drop_succ_cons]
            exact (drop_append_le (by simp at hlt; omega)).symm
          exact ih ⟨(fillQ r).cap, (b0 :: w0).drop (pos + 1), (fillQ r).rest, .start,
              (fillQ r).seqLen, (fillQ r).qualLen, (fillQ r).firstRecord⟩
            ((b0 :: w0).drop (pos + 1) ++ (fillQ r).rest) rfl hcap2
            (fun b hb => by
              rcases List.mem_append.mp hb with h | h
              · exact hmemw b (List.drop_subset _ _ h)
              · exact hmemr b h)
            (by rw [hdp]; exact plusOk_drop hpok (pos + 1))
            (by
              try simp only [rankQ] at hf
              try simp only [rankQ]
              try simp only [List.length_append, List.length_drop, List.length_cons,
                List.length_nil] at hlens ⊢
              omega)
      | id =>
        have hqst : (fillQ r).state = .id := by rw [fillQ_state, hst]
        rw [hst] at hf
        rcases hscan : scanIdx (fun c => c == 10) (b0 :: w0) with _ | nl
        · -- no newline in the window: the whole window is an id chunk
          have hstep : fastqStep r = .yield (.event (.idChunk (b0 :: w0)))
              ⟨(fillQ r).cap, [], (fillQ r).rest, .id,
               (fillQ r).seqLen, (fillQ r).qualLen, (fillQ r).firstRecord⟩ := by
            unfold fastqStep fastqScan
            rw [hw, hqst]
            simp only [hscan]
          have hrec := ih ⟨(fillQ r).cap, [], (fillQ r).rest, .id,
              (fillQ r).seqLen, (fillQ r).qualLen, (fillQ r).firstRecord⟩
            (fillQ r).rest rfl hcap2 hmemr hpokr
            (by
              try simp only [rankQ] at hf
              try simp only [rankQ]
              try simp only [List.length_append, List.length_drop, List.length_cons,
                List.length_nil] at hlens ⊢
              omega)
          have hcons := collectQ_cons_step hstep hrec
          rw [hcons, ← hqflat0]
          exact congrArg some (obs_id_splitQ (b0 :: w0) (fillQ r).rest _ _ _ (by simp) hscan
            (by rw [hqflat0]; exact hcr))
        · have hnlt := scanIdx_lt_length hscan
          have hgd : ¬(0 < nl ∧ (b0 :: w0).getD (nl - 1) 0 = 13) := by
            rintro ⟨hpos, hx⟩
            exact hmemw _ (getD_mem _ _ (by omega)) hx
          have hscanS : scanIdx (fun c => c == 10) (b0 :: (w0 ++ (fillQ r).rest)) = some nl :=
            scanIdx_append_some (w := b0 :: w0) _ hscan
          have hgdS : ¬(0 < nl ∧ (b0 :: (w0 ++ (fillQ r).rest)).getD (nl - 1) 0 = 13) := by
            rintro ⟨hpos, hx⟩
            refine hcr _ ?_ hx
            rw [hsc]
            exact getD_mem _ _ (by simp; simp at hnlt; omega)
          by_cases hnl0 : 0 < nl
          · have hstep : fastqStep r = .yield (.event (.idChunk ((b0 :: w0).take nl)))
                ⟨(fillQ r).cap, (b0 :: w0).drop (nl + 1), (fillQ r).rest, .sequence,
                 (fillQ r).seqLen, (fillQ r).qualLen, (fillQ r).firstRecord⟩ := by
              unfold fastqStep fastqScan
              rw [hw, hqst]
              simp only [hscan]
              rw [if_neg hgd, if_pos hnl0]
            have hflat2 : (b0 :: w0).drop (nl + 1) ++ (fillQ r).rest =
                (b0 :: (w0 ++ (fillQ r).rest)).drop (nl + 1) :=
              (drop_append_le (w := b0 :: w0) (by omega)).symm
            have hrec := ih ⟨(fillQ r).cap, (b0 :: w0).drop (nl + 1), (fillQ r).rest, .sequence,
                (fillQ r).seqLen, (fillQ r).qualLen, (fillQ r).firstRecord⟩
              ((b0 :: (w0 ++ (fillQ r).rest)).drop (nl + 1)) hflat2 hcap2
              (fun b hb => by
                refine hcr b ?_
                rw [hsc]
                exact List.drop_subset _ _ hb)
              (by rw [← hsc]; exact plusOk_drop hpok (nl + 1))
              (by
                try simp only [rankQ] at hf
                try simp only [rankQ]
                try simp only [List.length_append, List.length_drop, List.length_cons,
                  List.length_nil] at hlens ⊢
                omega)
            have hcons := collectQ_cons_step hstep hrec
            rw [hcons, hsc, absFastq_id_some_clean _ _ _ hscanS hgdS hnl0]
            have htake : (b0 :: (w0 ++ (fillQ r).rest)).take nl = (b0 :: w0).take nl :=
              take_append_le (w := b0 :: w0) (by omega)
            rw [htake]
          · have hnl0' : nl = 0 := by omega
            subst hnl0'
            have hstep : fastqStep r =
                .cont ⟨(fillQ r).cap, (b0 :: w0).drop 1, (fillQ r).rest, .sequence,
                 (fillQ r).seqLen, (fillQ r).qualLen, (fillQ r).firstRecord⟩ := by
              unfold fastqStep fastqScan
              rw [hw, hqst]
              simp only [hscan]
              rw [if_neg hgd]
              simp
            rw [collectQ, hstep]
            try simp only []
            rw [hsc, absFastq_id_some_zero _ _ _ hscanS]
            exact ih ⟨(fillQ r).cap, (b0 :: w0).drop 1, (fillQ r).rest, .sequence,
                (fillQ r).seqLen, (fillQ r).qualLen, (fillQ r).firstRecord⟩
              (w0 ++ (fillQ r).rest) rfl hcap2
              (fun b hb => hcr b (by rw [hsc]; exact List.mem_cons_of_mem _ hb))
              hpokt
              (by
                try simp only [rankQ] at hf
                try simp only [rankQ]
                try simp only [List.length_append, List.length_drop, List.length_cons,
                  List.length_nil] at hlens ⊢
                omega)
      | sequence =>
        have hqst : (fillQ r).state = .sequence := by rw [fillQ_state, hst]
        rw [hst] at hf
        have hb13 : b0 ≠ 13 := hmemw b0 (by simp)
        by_cases hb43 : b0 = 43
        · subst hb43
          rcases hsnl : scanIdx (fun c => c == 10) (43 :: w0) with _ | nl
          · -- no newline in the window: plusOk forces the window to be just "+"
            have hw0 : w0 = [] := by
              rcases w0 with _ | ⟨c, w0'⟩
              · rfl
              · exfalso
                have hc10 : c = 10 := plusOk_head (t := w0' ++ (fillQ r).rest) hpokc
                subst hc10
                simp [scanIdx] at hsnl
            subst hw0
            have hstep : fastqStep r = .cont ⟨(fillQ r).cap, [], (fillQ r).rest, .plus,
                (fillQ r).seqLen, (fillQ r).qualLen, (fillQ r).firstRecord⟩ := by
              unfold fastqStep fastqScan
              rw [hw, hqst]
              try simp only []
              simp only [if_true]
              simp only [hsnl]
            rw [collectQ, hstep]
            try simp only []
            have hihp := ih ⟨(fillQ r).cap, [], (fillQ r).rest, .plus,
                (fillQ r).seqLen, (fillQ r).qualLen, (fillQ r).firstRecord⟩
              (fillQ r).rest rfl hcap2 hmemr hpokr
              (by
                try simp only [rankQ] at hf
                try simp only [rankQ]
                try simp only [List.length_append, List.length_drop, List.length_cons,
                  List.length_nil] at hlens ⊢
                omega)
            rw [hsc]
            rcases hrc : (fillQ r).rest with _ | ⟨c, t'⟩
            · rw [hrc] at hihp
              have hs43 : scanIdx (fun c => c == 10) (43 :: ([] ++ ([] : List Nat))) = none := by
                simp [scanIdx]
              rw [absFastq_seq_plus, hs43]
              exact hihp
            · have hc10 : c = 10 := by
                have hp2 : plusOk (43 :: c :: t') = true := by
                  rw [← hrc]
                  simpa using hpokc
                exact plusOk_head hp2
              subst hc10
              rw [hrc] at hihp
              have hs43 : scanIdx (fun c => c == 10) (43 :: ([] ++ (10 :: t'))) = some 1 := by
                simp [scanIdx]
              rw [absFastq_seq_plus, hs43]
              simp only [List.nil_append, List.drop_succ_cons, List.drop_zero]
              try simp only [] at hihp
              rw [absFastq_plus_nl] at hihp
              rw [absFastq_plus_eq_quality _ _ _ _
                (fun b hb => hmemr b (by rw [hrc]; exact List.mem_cons_of_mem _ hb))]
              exact hihp
          · -- newline found in the window: skip the separator line
            have hnlt : nl < (43 :: w0).length := scanIdx_lt_length hsnl
            have hstep : fastqStep r = .cont ⟨(fillQ r).cap, (43 :: w0).drop (nl + 1),
                (fillQ r).rest, .plus,
                (fillQ r).seqLen, (fillQ r).qualLen, (fillQ r).firstRecord⟩ := by
              unfold fastqStep fastqScan
              rw [hw, hqst]
              try simp only []
              simp only [if_true]
              simp only [hsnl]
            rw [collectQ, hstep]
            try simp only []
            have hscanS : scanIdx (fun c => c == 10) (43 :: (w0 ++ (fillQ r).rest)) = some nl :=
              scanIdx_append_some (w := 43 :: w0) _ hsnl
            rw [hsc, absFastq_seq_plus, hscanS]
            try simp only []
            have hflat2 : (43 :: w0).drop (nl + 1) ++ (fillQ r).rest =
                (43 :: (w0 ++ (fillQ r).rest)).drop (nl + 1) :=
              (drop_append_le (w := 43 :: w0) (by omega)).symm
            exact ih ⟨(fillQ r).cap, (43 :: w0).drop (nl + 1), (fillQ r).rest, .plus,
                (fillQ r).seqLen, (fillQ r).qualLen, (fillQ r).firstRecord⟩
              ((43 :: (w0 ++ (fillQ r).rest)).drop (nl + 1)) hflat2 hcap2
              (fun b hb => by
                refine hcr b ?_
                rw [hsc]
                exact List.drop_subset _ _ hb)
              (by rw [← hsc]; exact plusOk_drop hpok (nl + 1))
              (by
                try simp only [rankQ] at hf
                try simp only [rankQ]
                try simp only [List.length_append, List.length_drop, List.length_cons,
                  List.length_nil] at hlens ⊢
                omega)
        · by_cases hb10 : b0 = 10
          · subst hb10
            have hstep : fastqStep r =
                .cont ⟨(fillQ r).cap, w0, (fillQ r).rest, .sequence,
                 (fillQ r).seqLen, (fillQ r).qualLen, (fillQ r).firstRecord⟩ := by
              unfold fastqStep fastqScan
              rw [hw, hqst]
              try simp only []
              rw [if_neg (by decide)]
              simp
            rw [collectQ, hstep]
            try simp only []
            rw [hsc, absFastq_seq_nl]
            exact ih ⟨(fillQ r).cap, w0, (fillQ r).rest, .sequence,
                (fillQ r).seqLen, (fillQ r).qualLen, (fillQ r).firstRecord⟩
              (w0 ++ (fillQ r).rest) rfl hcap2
              (fun b hb => hcr b (by rw [hsc]; exact List.mem_cons_of_mem _ hb))
              hpokt
              (by
                try simp only [rankQ] at hf
                try simp only [rankQ]
                try simp only [List.length_append, List.length_drop, List.length_cons,
                  List.length_nil] at hlens ⊢
                omega)
          · have hp3 : (fun c => c == 10 || c == 13 || c == 43) b0 = false := by
              simp [hb10, hb13, hb43]
            rcases hswin : scanIdx (fun c => c == 10 || c == 13 || c == 43) (b0 :: w0)
              with _ | ⟨_ | j⟩
            · -- no stop byte in the window
              have hce : scanIdxD (fun c => c == 10 || c == 13 || c == 43) (b0 :: w0) =
                  (b0 :: w0).length := by
                unfold scanIdxD
                rw [hswin]
                rfl
              have hstep : fastqStep r = .yield (.event (.seqChunk (b0 :: w0)))
                  ⟨(fillQ r).cap, [], (fillQ r).rest, .sequence,
                   (fillQ r).seqLen + (b0 :: w0).length, (fillQ r).qualLen,
                   (fillQ r).firstRecord⟩ := by
                unfold fastqStep fastqScan
                rw [hw, hqst]
                try simp only []
                rw [if_neg hb43, if_neg hb10, if_neg hb13, hce]
                rw [if_neg (by simp)]
                rw [List.take_length, List.drop_length]
              have hrec := ih ⟨(fillQ r).cap, [], (fillQ r).rest, .sequence,
                  (fillQ r).seqLen + (b0 :: w0).length, (fillQ r).qualLen,
                  (fillQ r).firstRecord⟩ (fillQ r).rest rfl
                hcap2 hmemr hpokr
                (by
                  try simp only [rankQ] at hf
                  try simp only [rankQ]
                  try simp only [List.length_append, List.length_drop, List.length_cons,
                    List.length_nil] at hlens ⊢
                  omega)
              have hcons := collectQ_cons_step hstep hrec
              rw [hcons, ← hqflat0]
              exact congrArg some (obs_seq_splitQ (b0 :: w0) (fillQ r).rest _ _ _ (by simp) hswin
                (by rw [hqflat0]; exact hcr))
            · -- a stop byte at index 0 is impossible here
              exfalso
              have := scanIdx_cons_zero hswin
              simp [hb10, hb13, hb43] at this
            · -- a stop byte at index j+1
              obtain ⟨-, hsw0⟩ := scanIdx_cons_succ hswin
              have hjlt := scanIdx_lt_length hsw0
              have hce : scanIdxD (fun c => c == 10 || c == 13 || c == 43) (b0 :: w0) =
                  j + 1 := by
                unfold scanIdxD
                rw [hswin]
                rfl
              have hstep : fastqStep r = .yield (.event (.seqChunk ((b0 :: w0).take (j + 1))))
                  ⟨(fillQ r).cap, (b0 :: w0).drop (j + 1), (fillQ r).rest, .sequence,
                   (fillQ r).seqLen + (j + 1), (fillQ r).qualLen, (fillQ r).firstRecord⟩ := by
                unfold fastqStep fastqScan
                rw [hw, hqst]
                try simp only []
                rw [if_neg hb43, if_neg hb10, if_neg hb13, hce]
                rw [if_neg (by omega)]
              have hsw0rest : scanIdx (fun c => c == 10 || c == 13 || c == 43)
                  (w0 ++ (fillQ r).rest) = some j := scanIdx_append_some _ hsw0
              have hceS : scanIdxD (fun c => c == 10 || c == 13 || c == 43)
                  (w0 ++ (fillQ r).rest) = j := by
                unfold scanIdxD
                rw [hsw0rest]
                rfl
              have hflat2 : (b0 :: w0).drop (j + 1) ++ (fillQ r).rest =
                  (w0 ++ (fillQ r).rest).drop j := by
                rw [List.drop_succ_cons]
                exact (drop_append_le (w := w0) (by omega)).symm
              have hrec := ih ⟨(fillQ r).cap, (b0 :: w0).drop (j + 1), (fillQ r).rest, .sequence,
                  (fillQ r).seqLen + (j + 1), (fillQ r).qualLen, (fillQ r).firstRecord⟩
                ((w0 ++ (fillQ r).rest).drop j) hflat2 hcap2
                (fun b hb => by
                  refine hcr b ?_
                  rw [hsc]
                  exact List.mem_cons_of_mem _ (List.drop_subset _ _ hb))
                (by
                  have := plusOk_drop hpok (j + 1)
                  rw [hsc] at this
                  simpa using this)
                (by
                  try simp only [rankQ] at hf
                  try simp only [rankQ]
                  try simp only [List.length_append, List.length_drop, List.length_cons,
                    List.length_nil] at hlens ⊢
                  omega)
              have hcons := collectQ_cons_step hstep hrec
              rw [hcons, hsc, absFastq_seq_chunk _ _ _ _ hb43 hb10 hb13, hceS]
              have htake : (b0 :: (w0 ++ (fillQ r).rest)).take (j + 1) =
                  (b0 :: w0).take (j + 1) :=
                take_append_le (w := b0 :: w0) (by
                  try simp only [List.length_append, List.length_drop, List.length_cons,
                    List.length_nil] at hlens ⊢
                  omega)
              rw [htake]
      | plus =>
        have hqst : (fillQ r).state = .plus := by rw [fillQ_state, hst]
        rw [hst] at hf
        have hb13 : b0 ≠ 13 := hmemw b0 (by simp)
        by_cases hb10 : b0 = 10
        · subst hb10
          have hstep : fastqStep r =
              .cont ⟨(fillQ r).cap, w0, (fillQ r).rest, .quality,
               (fillQ r).seqLen, (fillQ r).qualLen, (fillQ r).firstRecord⟩ := by
            unfold fastqStep fastqScan
            rw [hw, hqst]
            try simp only []
            simp
          rw [collectQ, hstep]
          try simp only []
          rw [hsc, absFastq_plus_nl]
          exact ih ⟨(fillQ r).cap, w0, (fillQ r).rest, .quality,
              (fillQ r).seqLen, (fillQ r).qualLen, (fillQ r).firstRecord⟩
            (w0 ++ (fillQ r).rest) rfl hcap2
            (fun b hb => hcr b (by rw [hsc]; exact List.mem_cons_of_mem _ hb))
            hpokt
            (by
              try simp only [rankQ] at hf
              try simp only [rankQ]
              try simp only [List.length_append, List.length_drop, List.length_cons,
                List.length_nil] at hlens ⊢
              omega)
        · have hstep : fastqStep r =
              .cont ⟨(fillQ r).cap, b0 :: w0, (fillQ r).rest, .quality,
               (fillQ r).seqLen, (fillQ r).qualLen, (fillQ r).firstRecord⟩ := by
            unfold fastqStep fastqScan
            rw [hw, hqst]
            try simp only []
            rw [if_neg hb10, if_neg hb13]
          rw [collectQ, hstep]
          try simp only []
          rw [hsc, absFastq_plus_content _ _ _ _ hb10 hb13]
          exact ih ⟨(fillQ r).cap, b0 :: w0, (fillQ r).rest, .quality,
              (fillQ r).seqLen, (fillQ r).qualLen, (fillQ r).firstRecord⟩
            (b0 :: (w0 ++ (fillQ r).rest)) (by rw [← hsc]; exact hqflat0 ▸ rfl) hcap2
            (by rw [← hsc]; exact hcr)
            (by rw [← hsc]; exact hpok)
            (by
              try simp only [rankQ] at hf
              try simp only [rankQ]
              try simp only [List.length_append, List.length_drop, List.length_cons,
                List.length_nil] at hlens ⊢
              omega)
      | quality =>
        have hqst : (fillQ r).state = .quality := by rw [fillQ_state, hst]
        rw [hst] at hf
        have hb13 : b0 ≠ 13 := hmemw b0 (by simp)
        by_cases hb10 : b0 = 10
        · subst hb10
          have hstep : fastqStep r =
              .cont ⟨(fillQ r).cap, w0, (fillQ r).rest, .quality,
               (fillQ r).seqLen, (fillQ r).qualLen, (fillQ r).firstRecord⟩ := by
            unfold fastqStep fastqScan
            rw [hw, hqst]
            try simp only []
            simp
          rw [collectQ, hstep]
          try simp only []
          rw [hsc, absFastq_quality_nl]
          exact ih ⟨(fillQ r).cap, w0, (fillQ r).rest, .quality,
              (fillQ r).seqLen, (fillQ r).qualLen, (fillQ r).firstRecord⟩
            (w0 ++ (fillQ r).rest) rfl hcap2
            (fun b hb => hcr b (by rw [hsc]; exact List.mem_cons_of_mem _ hb))
            hpokt
            (by
              try simp only [rankQ] at hf
              try simp only [rankQ]
              try simp only [List.length_append, List.length_drop, List.length_cons,
                List.length_nil] at hlens ⊢
              omega)
        · by_cases hrem : (fillQ r).seqLen - (fillQ r).qualLen = 0
          · have hstep : fastqStep r =
                .cont ⟨(fillQ r).cap, b0 :: w0, (fillQ r).rest, .start,
                 (fillQ r).seqLen, (fillQ r).qualLen, (fillQ r).firstRecord⟩ := by
              unfold fastqStep fastqScan
              rw [hw, hqst]
              try simp only []
              rw [if_neg hb10, if_neg hb13, if_pos hrem]
            rw [collectQ, hstep]
            try simp only []
            rw [hsc, absFastq_quality_done _ _ _ _ hb10 hb13 hrem]
            exact ih ⟨(fillQ r).cap, b0 :: w0, (fillQ r).rest, .start,
                (fillQ r).seqLen, (fillQ r).qualLen, (fillQ r).firstRecord⟩
              (b0 :: (w0 ++ (fillQ r).rest)) (by rw [← hsc]; exact hqflat0 ▸ rfl) hcap2
              (by rw [← hsc]; exact hcr)
              (by rw [← hsc]; exact hpok)
              (by
                try simp only [rankQ] at hf
                try simp only [rankQ]
                try simp only [List.length_append, List.length_drop, List.length_cons,
                  List.length_nil] at hlens ⊢
                omega)
          · have hp2 : (fun c => c == 10 || c == 13) b0 = false := by
              simp [hb10, hb13]
            rcases hsw : scanIdx (fun c => c == 10 || c == 13) w0 with _ | k
            · -- no terminator in the window
              have hwD : scanIdxD (fun c => c == 10 || c == 13) (b0 :: w0) =
                  w0.length + 1 := by
                rw [scanIdxD_cons_false w0 hp2]
                unfold scanIdxD
                rw [hsw]
                rfl
              have hsD : scanIdxD (fun c => c == 10 || c == 13) (w0 ++ (fillQ r).rest) =
                  w0.length + scanIdxD (fun c => c == 10 || c == 13) (fillQ r).rest :=
                scanIdxD_append_none _ hsw
              by_cases hRW : (fillQ r).seqLen - (fillQ r).qualLen ≤ w0.length + 1
              · -- remaining fits in the window: the chunk closes the record
                have hstep : fastqStep r = .yield (.event (.qualChunk
                    ((b0 :: w0).take ((fillQ r).seqLen - (fillQ r).qualLen))))
                    ⟨(fillQ r).cap,
                     (b0 :: w0).drop ((fillQ r).seqLen - (fillQ r).qualLen), (fillQ r).rest,
                     .start,
                     (fillQ r).seqLen,
                     (fillQ r).qualLen + ((fillQ r).seqLen - (fillQ r).qualLen),
                     (fillQ r).firstRecord⟩ := by
                  unfold fastqStep fastqScan
                  rw [hw, hqst]
                  try simp only []
                  rw [if_neg hb10, if_neg hb13, if_neg hrem, hwD]
                  rw [show min (w0.length + 1) ((fillQ r).seqLen - (fillQ r).qualLen) =
                      (fillQ r).seqLen - (fillQ r).qualLen from by omega]
                  rw [if_neg hrem]
                  have hge : (fillQ r).qualLen + ((fillQ r).seqLen - (fillQ r).qualLen) ≥
                      (fillQ r).seqLen := by omega
                  simp [hge]
                have hlece : (fillQ r).seqLen - (fillQ r).qualLen ≤ (b0 :: w0).length := by
                  simp
                  omega
                have hflat2 : (b0 :: w0).drop ((fillQ r).seqLen - (fillQ r).qualLen) ++
                    (fillQ r).rest =
                    (b0 :: (w0 ++ (fillQ r).rest)).drop
                      ((fillQ r).seqLen - (fillQ r).qualLen) :=
                  (drop_append_le (w := b0 :: w0) hlece).symm
                have hrec := ih ⟨(fillQ r).cap,
                    (b0 :: w0).drop ((fillQ r).seqLen - (fillQ r).qualLen), (fillQ r).rest,
                    .start, (fillQ r).seqLen,
                    (fillQ r).qualLen + ((fillQ r).seqLen - (fillQ r).qualLen),
                    (fillQ r).firstRecord⟩
                  ((b0 :: (w0 ++ (fillQ r).rest)).drop ((fillQ r).seqLen - (fillQ r).qualLen))
                  hflat2 hcap2
                  (fun b hb => by
                    refine hcr b ?_
                    rw [hsc]
                    exact List.drop_subset _ _ hb)
                  (by rw [← hsc]; exact plusOk_drop hpok _)
                  (by
                    try simp only [rankQ] at hf
                    try simp only [rankQ]
                    try simp only [List.length_append, List.length_drop, List.length_cons,
                      List.length_nil] at hlens ⊢
                    omega)
                have hcons := collectQ_cons_step hstep hrec
                rw [hcons, hsc, absFastq_quality_chunk _ _ _ _ hb10 hb13 hrem, hsD]
                rw [show min (w0.length +
                    scanIdxD (fun c => c == 10 || c == 13) (fillQ r).rest + 1)
                    ((fillQ r).seqLen - (fillQ r).qualLen) =
                    (fillQ r).seqLen - (fillQ r).qualLen from by omega]
                rw [if_pos (by omega)]
                have htake : (b0 :: (w0 ++ (fillQ r).rest)).take
                    ((fillQ r).seqLen - (fillQ r).qualLen) =
                    (b0 :: w0).take ((fillQ r).seqLen - (fillQ r).qualLen) :=
                  take_append_le (w := b0 :: w0) hlece
                rw [htake]
              · -- remaining exceeds the window: the whole window is a quality chunk
                have hstep : fastqStep r = .yield (.event (.qualChunk (b0 :: w0)))
                    ⟨(fillQ r).cap, [], (fillQ r).rest, .quality,
                     (fillQ r).seqLen, (fillQ r).qualLen + (b0 :: w0).length,
                     (fillQ r).firstRecord⟩ := by
                  unfold fastqStep fastqScan
                  rw [hw, hqst]
                  try simp only []
                  rw [if_neg hb10, if_neg hb13, if_neg hrem, hwD]
                  rw [show min (w0.length + 1) ((fillQ r).seqLen - (fillQ r).qualLen) =
                      w0.length + 1 from by omega]
                  rw [if_neg (by omega)]
                  rw [show w0.length + 1 = (b0 :: w0).length from by simp]
                  rw [List.take_length, List.drop_length]
                  have hlt : ¬((fillQ r).qualLen + (b0 :: w0).length ≥ (fillQ r).seqLen) := by
                    simp
                    omega
                  simp only [ge_iff_le] at hlt ⊢
                  rw [if_neg hlt]
                have hrec := ih ⟨(fillQ r).cap, [], (fillQ r).rest, .quality,
                    (fillQ r).seqLen, (fillQ r).qualLen + (b0 :: w0).length,
                    (fillQ r).firstRecord⟩ (fillQ r).rest rfl hcap2 hmemr hpokr
                  (by
                    try simp only [rankQ] at hf
                    try simp only [rankQ]
                    try simp only [List.length_append, List.length_drop, List.length_cons,
                      List.length_nil] at hlens ⊢
                    omega)
                have hcons := collectQ_cons_step hstep hrec
                rw [hcons, ← hqflat0]
                have hscanwin : scanIdx (fun c => c == 10 || c == 13) (b0 :: w0) = none := by
                  simp only [scanIdx, hp2, Bool.false_eq_true, if_false, hsw, Option.map_none']
                exact congrArg some (obs_qual_splitQ (b0 :: w0) (fillQ r).rest _ _ _
                  (by simp) hscanwin (by simp; omega))
            · -- a terminator inside the window at index k+1
              have hklt : k < w0.length := scanIdx_lt_length hsw
              have hDk : scanIdxD (fun c => c == 10 || c == 13) w0 = k := by
                unfold scanIdxD
                rw [hsw]
                rfl
              have hwD : scanIdxD (fun c => c == 10 || c == 13) (b0 :: w0) = k + 1 := by
                rw [scanIdxD_cons_false w0 hp2, hDk]
              have hceS : scanIdxD (fun c => c == 10 || c == 13)
                  (w0 ++ (fillQ r).rest) = k := by
                unfold scanIdxD
                rw [scanIdx_append_some _ hsw]
                rfl
              have hstep : fastqStep r = .yield (.event (.qualChunk
                  ((b0 :: w0).take
                    (min (k + 1) ((fillQ r).seqLen - (fillQ r).qualLen)))))
                  ⟨(fillQ r).cap,
                   (b0 :: w0).drop (min (k + 1) ((fillQ r).seqLen - (fillQ r).qualLen)),
                   (fillQ r).rest,
                   (if (fillQ r).seqLen ≤ (fillQ r).qualLen +
                       min (k + 1) ((fillQ r).seqLen - (fillQ r).qualLen)
                    then QState.start else QState.quality),
                   (fillQ r).seqLen,
                   (fillQ r).qualLen + min (k + 1) ((fillQ r).seqLen - (fillQ r).qualLen),
                   (fillQ r).firstRecord⟩ := by
                unfold fastqStep fastqScan
                rw [hw, hqst]
                try simp only []
                rw [if_neg hb10, if_neg hb13, if_neg hrem, hwD]
                rw [if_neg (by omega)]
                try simp only [ge_iff_le]
              have hlece : min (k + 1) ((fillQ r).seqLen - (fillQ r).qualLen) ≤
                  (b0 :: w0).length := by
                simp
                omega
              have hflat2 : (b0 :: w0).drop
                  (min (k + 1) ((fillQ r).seqLen - (fillQ r).qualLen)) ++ (fillQ r).rest =
                  (b0 :: (w0 ++ (fillQ r).rest)).drop
                    (min (k + 1) ((fillQ r).seqLen - (fillQ r).qualLen)) :=
                (drop_append_le (w := b0 :: w0) hlece).symm
              have hrk : rankQ (if (fillQ r).seqLen ≤ (fillQ r).qualLen +
                  min (k + 1) ((fillQ r).seqLen - (fillQ r).qualLen)
                  then QState.start else QState.quality) ≤ 1 := by
                split
                · decide
                · decide
              have hrec := ih ⟨(fillQ r).cap,
                  (b0 :: w0).drop (min (k + 1) ((fillQ r).seqLen - (fillQ r).qualLen)),
                  (fillQ r).rest,
                  (if (fillQ r).seqLen ≤ (fillQ r).qualLen +
                      min (k + 1) ((fillQ r).seqLen - (fillQ r).qualLen)
                   then QState.start else QState.quality),
                  (fillQ r).seqLen,
                  (fillQ r).qualLen + min (k + 1) ((fillQ r).seqLen - (fillQ r).qualLen),
                  (fillQ r).firstRecord⟩
                ((b0 :: (w0 ++ (fillQ r).rest)).drop
                  (min (k + 1) ((fillQ r).seqLen - (fillQ r).qualLen)))
                hflat2 hcap2
                (fun b hb => by
                  refine hcr b ?_
                  rw [hsc]
                  exact List.drop_subset _ _ hb)
                (by rw [← hsc]; exact plusOk_drop hpok _)
                (by
                  try simp only [rankQ] at hf
                  try simp only [List.length_append, List.length_drop, List.length_cons,
                    List.length_nil] at hlens ⊢
                  omega)
              have hcons := collectQ_cons_step hstep hrec
              rw [hcons, hsc, absFastq_quality_chunk _ _ _ _ hb10 hb13 hrem, hceS]
              have htake : (b0 :: (w0 ++ (fillQ r).rest)).take
                  (min (k + 1) ((fillQ r).seqLen - (fillQ r).qualLen)) =
                  (b0 :: w0).take (min (k + 1) ((fillQ r).seqLen - (fillQ r).qualLen)) :=
                take_append_le (w := b0 :: w0) hlece
              rw [htake]

/-- C2 (amended): for inputs that contain no carriage-return byte and in which
every `'+'` byte is immediately followed by a line feed (or is the last byte),
the sequence of events produced by either reader — compared through the
per-record concatenation of id, sequence and quality payloads together with the
final error — is the same for every pair of buffer capacities `≥ 1`. -/
theorem claimC2_amended (input : List Nat) (cap1 cap2 : Nat)
    (h1 : 1 ≤ cap1) (h2 : 1 ≤ cap2)
    (hcr : ∀ b ∈ input, b ≠ 13) (hpl : plusOk input = true) :
    ((collectF (3 * input.length + 2) (initFasta cap1 input)).map obs =
       (collectF (3 * input.length + 2) (initFasta cap2 input)).map obs) ∧
    ((collectQ (3 * input.length + 2) (initFastq cap1 input)).map obs =
       (collectQ (3 * input.length + 2) (initFastq cap2 input)).map obs) := by
  constructor
  · rw [fastaSim (3 * input.length + 2) (initFasta cap1 input) input rfl h1 hcr (le_refl _),
       fastaSim (3 * input.length + 2) (initFasta cap2 input) input rfl h2 hcr (le_refl _)]
    rfl
  · rw [fastqSim (3 * input.length + 2) (initFastq cap1 input) input rfl h1 hcr hpl
         (by simp [initFastq, rankQ]),
       fastqSim (3 * input.length + 2) (initFastq cap2 input) input rfl h2 hcr hpl
         (by simp [initFastq, rankQ])]
    rfl

theorem claimC2_amended_witness :
    ((∀ b ∈ inputC5, b ≠ 13) ∧ plusOk inputC5 = true) ∧
    (((collectF (3 * inputC5.length + 2) (initFasta 1 inputC5)).map obs =
        (collectF (3 * inputC5.length + 2) (initFasta 3 inputC5)).map obs) ∧
     ((collectQ (3 * inputC5.length + 2) (initFastq 1 inputC5)).map obs =
        (collectQ (3 * inputC5.length + 2) (initFastq 3 inputC5)).map obs)) :=
  ⟨⟨by decide, by decide⟩,
   claimC2_amended inputC5 1 3 (by decide) (by decide) (by decide) (by decide)⟩
